import Mathlib

/-!
Shallow embedding of the lazy chunked N-dimensional expression engine of
`blosc2/lazyexpr.py` (python-blosc2), and verification of its specification.

Conventions used throughout:
* Python strings are modelled as `List Char` (`Str` below); f-string decimal
  rendering of a `Nat` is `natDigs`.
* Python `dict`s (which preserve insertion order) are modelled as association
  lists `List (Str × _)`; `dict.update` appends/overwrites in order.
* Machine arrays are modelled by their shape (`List Nat`) plus a total
  content function `List Nat → α`; only indices pointwise below the shape
  are meaningful.
* Fallible Python code (raising) is modelled with `Except`/`Option`.
* External collaborators (the blosc2 container, the numexpr kernel, numpy
  reductions) are modelled by their contracts as stated in the spec, since
  their code is not part of this repository.
-/

set_option maxRecDepth 4000

abbrev Str := List Char

/-! ### Decimal rendering and parsing of naturals

`natDigs n` is the decimal rendering of `n` (the Lean model of Python's
`f"{n}"` for a nonnegative int); `parseNatDigits` is Python `int(s)`
restricted to plain digit runs (`none` models the `ValueError` that
`int` raises on empty or non-digit input). -/

/-- Fuel-driven decimal rendering (most significant digit first); the fuel
`n + 1` always suffices.  Structural recursion keeps the definition
kernel-computable. -/
def natDigsF : Nat → Nat → List Char
  | 0, _ => []
  | fuel+1, n =>
    if n < 10 then [Char.ofNat (48 + n)]
    else natDigsF fuel (n / 10) ++ [Char.ofNat (48 + n % 10)]

def natDigs (n : Nat) : List Char := natDigsF (n + 1) n

theorem natDigsF_eq (fuel : Nat) : ∀ n, 0 < n → n < fuel →
    natDigsF fuel n
      = ((Nat.digits 10 n).map (fun d => Char.ofNat (48 + d))).reverse := by
  induction fuel with
  | zero => intro n _ h; omega
  | succ fuel ih =>
    intro n hn h
    by_cases h10 : n < 10
    · show (if n < 10 then [Char.ofNat (48 + n)] else _) = _
      rw [if_pos h10, Nat.digits_def' (by norm_num : 1 < 10) hn,
        Nat.div_eq_of_lt h10, Nat.digits_zero, Nat.mod_eq_of_lt h10]
      rfl
    · show (if n < 10 then [Char.ofNat (48 + n)]
        else natDigsF fuel (n / 10) ++ [Char.ofNat (48 + n % 10)]) = _
      rw [if_neg h10]
      have hq : 0 < n / 10 := Nat.div_pos (Nat.le_of_not_lt h10) (by norm_num)
      have hlt : n / 10 < fuel := by
        have := Nat.div_lt_self hn (by norm_num : 1 < 10)
        omega
      rw [ih (n / 10) hq hlt, Nat.digits_def' (by norm_num : 1 < 10) hn]
      simp [List.reverse_cons]

theorem natDigs_eq (n : Nat) :
    natDigs n = if n = 0 then ['0']
      else ((Nat.digits 10 n).map (fun d => Char.ofNat (48 + d))).reverse := by
  unfold natDigs
  by_cases h : n = 0
  · subst h
    rfl
  · rw [if_neg h]
    exact natDigsF_eq (n+1) n (Nat.pos_of_ne_zero h) (Nat.lt_succ_self n)

def digitVal (c : Char) : Nat := c.toNat - 48

def parseNatDigits (cs : List Char) : Option Nat :=
  if cs ≠ [] ∧ cs.all Char.isDigit then
    some (cs.foldl (fun acc c => acc * 10 + digitVal c) 0)
  else none

theorem digit_char_isDigit {d : Nat} (hd : d < 10) :
    (Char.ofNat (48 + d)).isDigit = true := by
  interval_cases d <;> decide

theorem digitVal_char {d : Nat} (hd : d < 10) :
    digitVal (Char.ofNat (48 + d)) = d := by
  interval_cases d <;> decide

theorem natDigs_ne_nil (n : Nat) : natDigs n ≠ [] := by
  rw [natDigs_eq]
  split
  · simp
  · simp only [ne_eq, List.reverse_eq_nil_iff, List.map_eq_nil_iff]
    exact Nat.digits_ne_nil_iff_ne_zero.mpr (by assumption)

theorem natDigs_all_digit (n : Nat) : (natDigs n).all Char.isDigit = true := by
  rw [natDigs_eq]
  split
  · decide
  · simp only [List.all_eq_true, List.mem_reverse, List.mem_map]
    rintro c ⟨d, hd, rfl⟩
    exact digit_char_isDigit (Nat.digits_lt_base (by norm_num) hd)

theorem mem_natDigs_isDigit {n : Nat} {c : Char} (hc : c ∈ natDigs n) :
    c.isDigit = true := by
  have := natDigs_all_digit n
  simp only [List.all_eq_true] at this
  exact this c hc

/-- A decimal digit char is none of the characters that the placeholder
scanner treats specially. -/
theorem isDigit_not_special {c : Char} (h : c.isDigit = true) :
    c ≠ ' ' ∧ c ≠ ')' ∧ c ≠ '[' ∧ c ≠ 'o' ∧ c ≠ '(' := by
  simp only [Char.isDigit, decide_eq_true_eq] at h
  refine ⟨?_, ?_, ?_, ?_, ?_⟩ <;> rintro rfl <;> revert h <;> decide

theorem foldl_rev_eq_ofDigits (ds : List Nat) :
    ds.reverse.foldl (fun acc d => acc * 10 + d) 0 = Nat.ofDigits 10 ds := by
  induction ds with
  | nil => simp [Nat.ofDigits]
  | cons d ds ih =>
    rw [List.reverse_cons, List.foldl_append, ih, Nat.ofDigits_cons]
    simp
    ring

theorem foldl_digitVal_map (ds : List Nat) (hds : ∀ d ∈ ds, d < 10) (a : Nat) :
    (ds.map (fun d => Char.ofNat (48 + d))).foldl
        (fun acc c => acc * 10 + digitVal c) a
      = ds.foldl (fun acc d => acc * 10 + d) a := by
  induction ds generalizing a with
  | nil => rfl
  | cons d ds ih =>
    simp only [List.map_cons, List.foldl_cons]
    rw [digitVal_char (hds d (List.mem_cons_self d ds))]
    exact ih (fun x hx => hds x (List.mem_cons_of_mem d hx)) _

/-- Round trip: Python's `int` applied to the decimal rendering of `n`
recovers `n`. -/
theorem parseNatDigits_natDigs (n : Nat) : parseNatDigits (natDigs n) = some n := by
  unfold parseNatDigits
  rw [if_pos ⟨natDigs_ne_nil n, natDigs_all_digit n⟩]
  congr 1
  rw [natDigs_eq]
  split
  · simp [digitVal]
    omega
  · rw [← List.map_reverse, foldl_digitVal_map _
      (fun d hd => Nat.digits_lt_base (by norm_num) (List.mem_reverse.mp hd)),
      foldl_rev_eq_ofDigits, Nat.ofDigits_digits]

theorem natDigs_injective {m n : Nat} (h : natDigs m = natDigs n) : m = n := by
  have hm := parseNatDigits_natDigs m
  have hn := parseNatDigits_natDigs n
  rw [h, hn] at hm
  exact (Option.some.injEq _ _).mp hm.symm

/-! ### Slices and `do_slices_intersect` (C10)

`slice(start, stop)` objects with `None` meaning open; `step` is always
`None` in this code path.  The lists handed to `do_slices_intersect` may
contain `Ellipsis`. -/

structure Slc where
  first? : Option Int
  stop?  : Option Int
deriving DecidableEq, Repr

inductive SlE
  | ellipsis
  | slc (s : Slc)
deriving DecidableEq, Repr

/-- `slice(None)`, the full slice. -/
def fullSlc : SlE := .slc ⟨none, none⟩

/-- One dimension of the `do_slices_intersect` loop body: the two `if`
tests that return `False` (no intersection in this dimension). -/
def dimNoOverlap (a b : Slc) : Bool :=
  (match a.first?, b.stop? with
   | some s1, some e2 => decide (e2 ≤ s1)
   | _, _ => false) ||
  (match a.stop?, b.first? with
   | some e1, some s2 => decide (e1 ≤ s2)
   | _, _ => false)

/-- The `for s1, s2 in zip(slice1, slice2)` loop of `do_slices_intersect`:
`Ellipsis` returns `True` immediately, a non-overlapping dimension returns
`False`, otherwise continue; exhausting the loop returns `True`. -/
def intersectLoop : List (SlE × SlE) → Bool
  | [] => true
  | (s1, s2) :: rest =>
    match s1, s2 with
    | .ellipsis, _ => true
    | _, .ellipsis => true
    | .slc a, .slc b => if dimNoOverlap a b then false else intersectLoop rest

/-- `do_slices_intersect(slice1, slice2)`.  The Python function first pads the
shorter argument *in place* with `slice(None)` until the lengths agree, then
runs the loop.  The mutation of the caller's lists is modelled by returning
the final contents of both lists alongside the boolean result. -/
def do_slices_intersect (slice1 slice2 : List SlE) : Bool × List SlE × List SlE :=
  let n := max slice1.length slice2.length
  let s1 := slice1 ++ List.replicate (n - slice1.length) fullSlc
  let s2 := slice2 ++ List.replicate (n - slice2.length) fullSlc
  (intersectLoop (s1.zip s2), s1, s2)

/-- A list of dimension pairs each of which has a full slice on one side
never decides the loop: it falls through to `True`. -/
theorem intersectLoop_all_full (tail : List (SlE × SlE))
    (h : ∀ p ∈ tail, p.1 = fullSlc ∨ p.2 = fullSlc) :
    intersectLoop tail = true := by
  induction tail with
  | nil => rfl
  | cons p rest ih =>
    obtain ⟨s1, s2⟩ := p
    rcases h (s1, s2) (List.mem_cons_self _ _) with h1 | h2
    · cases h1
      show intersectLoop ((fullSlc, s2) :: rest) = true
      cases s2 with
      | ellipsis => rfl
      | slc b =>
        show (if dimNoOverlap ⟨none, none⟩ b then false else intersectLoop rest) = true
        rw [if_neg]
        · exact ih (fun q hq => h q (List.mem_cons_of_mem _ hq))
        · simp [dimNoOverlap]
    · cases h2
      show intersectLoop ((s1, fullSlc) :: rest) = true
      cases s1 with
      | ellipsis => rfl
      | slc a =>
        show (if dimNoOverlap a ⟨none, none⟩ then false else intersectLoop rest) = true
        rw [if_neg]
        · exact ih (fun q hq => h q (List.mem_cons_of_mem _ hq))
        · simp [dimNoOverlap]

theorem intersectLoop_append_full (common tail : List (SlE × SlE))
    (h : ∀ p ∈ tail, p.1 = fullSlc ∨ p.2 = fullSlc) :
    intersectLoop (common ++ tail) = intersectLoop common := by
  induction common with
  | nil => simpa using intersectLoop_all_full tail h
  | cons p rest ih =>
    obtain ⟨s1, s2⟩ := p
    cases s1 with
    | ellipsis => cases s2 <;> rfl
    | slc a =>
      cases s2 with
      | ellipsis => rfl
      | slc b =>
        show (if dimNoOverlap a b then false else intersectLoop (rest ++ tail))
          = (if dimNoOverlap a b then false else intersectLoop rest)
        by_cases hd : dimNoOverlap a b
        · rw [if_pos hd, if_pos hd]
        · rw [if_neg hd, if_neg hd, ih]

theorem zip_eq_zip_take (l1 : List SlE) (l2 : List SlE) :
    l1.zip l2 = l1.zip (l2.take l1.length) := by
  induction l1 generalizing l2 with
  | nil => simp
  | cons a as ih =>
    cases l2 with
    | nil => simp
    | cons b bs => simp [List.zip_cons_cons, ih bs]

theorem zip_eq_take_zip (l1 : List SlE) (l2 : List SlE) :
    l1.zip l2 = (l1.take l2.length).zip l2 := by
  induction l1 generalizing l2 with
  | nil => simp
  | cons a as ih =>
    cases l2 with
    | nil => simp
    | cons b bs => simp [List.zip_cons_cons, ih bs]

/-- Padding with full slices does not change the loop's verdict: the result
equals the loop over the (truncating) zip of the original, unpadded lists. -/
theorem intersectLoop_padded (l1 l2 : List SlE) :
    (do_slices_intersect l1 l2).1 = intersectLoop (l1.zip l2) := by
  show intersectLoop
      ((l1 ++ List.replicate (max l1.length l2.length - l1.length) fullSlc).zip
       (l2 ++ List.replicate (max l1.length l2.length - l2.length) fullSlc))
    = intersectLoop (l1.zip l2)
  rcases Nat.le_total l1.length l2.length with h | h
  · rw [Nat.max_eq_right h, Nat.sub_self, List.replicate_zero, List.append_nil]
    conv_lhs => rw [← List.take_append_drop l1.length l2]
    rw [List.zip_append (by rw [List.length_take, Nat.min_eq_left h]),
      intersectLoop_append_full _ _ (fun p hp =>
        Or.inl (List.eq_of_mem_replicate (List.of_mem_zip hp).1)),
      ← zip_eq_zip_take]
  · rw [Nat.max_eq_left h, Nat.sub_self, List.replicate_zero, List.append_nil]
    conv_lhs => rw [← List.take_append_drop l2.length l1]
    rw [List.zip_append (by rw [List.length_take, Nat.min_eq_left h]),
      intersectLoop_append_full _ _ (fun p hp =>
        Or.inr (List.eq_of_mem_replicate (List.of_mem_zip hp).2)),
      ← zip_eq_take_zip]

/-- C10: `do_slices_intersect` is not pure in its arguments: with lists of
unequal length it pads the shorter one in place with full slices, so the
caller's list has the longer length after the call; this padding never
changes the boolean intersection result (which equals the loop over the
truncating zip of the original lists); and equal-length arguments are left
unchanged. -/
theorem C10_do_slices_intersect_impure (l1 l2 : List SlE) :
    (l1.length < l2.length →
        (do_slices_intersect l1 l2).2.1
            = l1 ++ List.replicate (l2.length - l1.length) fullSlc ∧
        (do_slices_intersect l1 l2).2.1.length = l2.length ∧
        (do_slices_intersect l1 l2).2.2 = l2) ∧
    (l2.length < l1.length →
        (do_slices_intersect l1 l2).2.2
            = l2 ++ List.replicate (l1.length - l2.length) fullSlc ∧
        (do_slices_intersect l1 l2).2.2.length = l1.length ∧
        (do_slices_intersect l1 l2).2.1 = l1) ∧
    (l1.length = l2.length →
        (do_slices_intersect l1 l2).2.1 = l1 ∧
        (do_slices_intersect l1 l2).2.2 = l2) ∧
    (do_slices_intersect l1 l2).1 = intersectLoop (l1.zip l2) := by
  have h1 : (do_slices_intersect l1 l2).2.1
      = l1 ++ List.replicate (max l1.length l2.length - l1.length) fullSlc := rfl
  have h2 : (do_slices_intersect l1 l2).2.2
      = l2 ++ List.replicate (max l1.length l2.length - l2.length) fullSlc := rfl
  refine ⟨?_, ?_, ?_, intersectLoop_padded l1 l2⟩
  · intro h
    rw [h1, h2, Nat.max_eq_right (Nat.le_of_lt h), Nat.sub_self,
      List.replicate_zero, List.append_nil]
    refine ⟨rfl, ?_, rfl⟩
    simp only [List.length_append, List.length_replicate]
    omega
  · intro h
    rw [h1, h2, Nat.max_eq_left (Nat.le_of_lt h), Nat.sub_self,
      List.replicate_zero, List.append_nil]
    refine ⟨rfl, ?_, rfl⟩
    simp only [List.length_append, List.length_replicate]
    omega
  · intro h
    constructor
    · rw [h1]
      have hz : max l1.length l2.length - l1.length = 0 := by omega
      rw [hz, List.replicate_zero, List.append_nil]
    · rw [h2]
      have hz : max l1.length l2.length - l2.length = 0 := by omega
      rw [hz, List.replicate_zero, List.append_nil]

theorem C10_witness :
    (do_slices_intersect [fullSlc] [fullSlc, SlE.ellipsis]).2.1.length = 2 ∧
    (do_slices_intersect [fullSlc] [fullSlc, SlE.ellipsis]).1 = true := by
  have h := C10_do_slices_intersect_impure [fullSlc] [fullSlc, SlE.ellipsis]
  exact ⟨(h.1 (by decide)).2.1, by decide⟩

/-! ### Array operands, broadcasting, and `validate_inputs` (C2)

An operand is a Python scalar, a dense in-memory `np.ndarray`, or a chunked
`blosc2.NDArray` container.  Containers are external collaborators; we model
their contract attributes (`shape`, `chunks`, `blocks`) plus a total content
function standing for the stored values. -/

structure NDA (α : Type) where
  shape  : List Nat
  chunks : List Nat
  blocks : List Nat
  data   : List Nat → α

inductive Opr (α : Type)
  | scalar (v : α)
  | npA (shape : List Nat) (data : List Nat → α)
  | ndA (a : NDA α)

/-- `isinstance(input, blosc2.NDArray | np.ndarray)`. -/
def Opr.isArr : Opr α → Bool
  | .scalar _ => false
  | _ => true

/-- `isinstance(input, blosc2.NDArray)`. -/
def Opr.isND : Opr α → Bool
  | .ndA _ => true
  | _ => false

/-- `.shape` (only read on array operands; scalars are filtered out first). -/
def Opr.shape : Opr α → List Nat
  | .scalar _ => []
  | .npA s _ => s
  | .ndA a => a.shape

/-- `.chunks` (only read on `blosc2.NDArray` operands). -/
def Opr.chunks : Opr α → List Nat
  | .ndA a => a.chunks
  | _ => []

/-- `.blocks` (only read on `blosc2.NDArray` operands). -/
def Opr.blocks : Opr α → List Nat
  | .ndA a => a.blocks
  | _ => []

/-- `check_broadcast_compatible(arrays)` over the operand shapes:
`true` models a normal return, `false` the raised `ValueError`.
Python pads the shorter shapes with leading 1s, reverses, and compares
dimension by dimension; the padded-and-reversed entry `d` of shape `s` is
exactly `s.reverse.getD d 1`. -/
def check_broadcast_compatible (shapes : List (List Nat)) : Bool :=
  let maxLen := (shapes.map List.length).foldl max 0
  (List.range maxLen).all (fun d =>
    let dims := shapes.map (fun s => s.reverse.getD d 1)
    let maxDim := dims.foldl max 0
    dims.all (fun dim => dim = maxDim || dim = 1))

/-- `compute_broadcast_shape(arrays)`: numpy code computing the
dimension-wise maximum over the right-aligned shapes (shape entry `i`,
counted from the left of the `maxLen`-padded shape, is the maximum over
the operands' padded entries there). -/
def compute_broadcast_shape (shapes : List (List Nat)) : List Nat :=
  let maxLen := (shapes.map List.length).foldl max 0
  (List.range maxLen).map (fun i =>
    (shapes.map (fun s => s.reverse.getD (maxLen - 1 - i) 1)).foldl max 0)

/-- Right-aligned dimension `d` (counted from the right; absent dimensions
count as 1) — the view of a shape used by the classical broadcast rule. -/
def alignedDim (s : List Nat) (d : Nat) : Nat := s.reverse.getD d 1

/-- Spec-side definition (from the spec's words): the classical right-aligned
broadcast rule admits a set of shapes iff every right-aligned dimension pair
is equal or contains a 1. -/
def broadcastCompatSpec (shapes : List (List Nat)) : Prop :=
  ∀ d < (shapes.map List.length).foldl max 0, ∀ a ∈ shapes, ∀ b ∈ shapes,
    alignedDim a d = alignedDim b d ∨ alignedDim a d = 1 ∨ alignedDim b d = 1

instance (shapes : List (List Nat)) : Decidable (broadcastCompatSpec shapes) := by
  unfold broadcastCompatSpec
  infer_instance

/-- The possible `out=` arguments (`_output`): a chunked container or a
dense numpy buffer. -/
inductive OutArg (α : Type)
  | ndA (a : NDA α)
  | npA (shape : List Nat)

/-- `validate_inputs(inputs, getitem=..., out=...)` → `(shape, fast_path)`.

The `dtype` component of the Python return value is not modelled (no claim
mentions it) and the `getitem` parameter is unused in the Python body and
dropped.  `.error` models the raised `ValueError`s; reading `inputs[0]`
of an empty filtered list (all-scalar operand dict) would raise an
`IndexError` in Python and is modelled as an error as well. -/
def validate_inputs (inputs : List (Str × Opr α)) (out : Option (OutArg α)) :
    Except Str (List Nat × Bool) :=
  if inputs.length = 0 then
    .error "You need to pass at least one array".data
  else
    let arrs := (inputs.map Prod.snd).filter Opr.isArr
    if 1 < arrs.length ∧ check_broadcast_compatible (arrs.map Opr.shape) = false then
      .error "operands could not be broadcast together with shapes".data
    else
      match arrs.filter Opr.isND with
      | [] =>
        match arrs with
        | [] => .error "IndexError".data
        | a :: _ => .ok (a.shape, false)
      | first :: rest =>
        match out with
        | some (.ndA o) =>
          if first.shape ≠ o.shape then
            .error "Output shape does not match the first input shape".data
          else
            let equal_chunks := decide (first.chunks = o.chunks) &&
              (first :: rest).all (fun x => decide (first.chunks = x.chunks))
            let equal_blocks := decide (first.blocks = o.blocks) &&
              (first :: rest).all (fun x =>
                decide (first.blocks = x.blocks) && decide (x.blocks.tail = x.chunks.tail))
            .ok (first.shape, equal_chunks && equal_blocks)
        | _ =>
          let equal_chunks :=
            (first :: rest).all (fun x => decide (first.chunks = x.chunks))
          let equal_blocks :=
            (first :: rest).all (fun x =>
              decide (first.blocks = x.blocks) && decide (x.blocks.tail = x.chunks.tail))
          .ok (first.shape, equal_chunks && equal_blocks)

/-- The shape `validate_inputs` actually reports on success: the first
chunked operand's shape when one exists, else the first array operand's
shape. -/
def firstReportedShape (inputs : List (Str × Opr α)) : List Nat :=
  let arrs := (inputs.map Prod.snd).filter Opr.isArr
  match arrs.filter Opr.isND with
  | first :: _ => first.shape
  | [] =>
    match arrs with
    | a :: _ => a.shape
    | [] => []

theorem init_le_foldl_max (l : List Nat) (b : Nat) : b ≤ l.foldl max b := by
  induction l generalizing b with
  | nil => exact Nat.le_refl b
  | cons x xs ih => exact Nat.le_trans (Nat.le_max_left b x) (ih (max b x))

theorem le_foldl_max (l : List Nat) (b : Nat) {a : Nat} (ha : a ∈ l) :
    a ≤ l.foldl max b := by
  induction l generalizing b with
  | nil => cases ha
  | cons x xs ih =>
    rcases List.mem_cons.mp ha with rfl | h
    · exact Nat.le_trans (Nat.le_max_right b a) (init_le_foldl_max xs (max b a))
    · exact ih _ h

theorem foldl_max_le {l : List Nat} {b m : Nat} (hb : b ≤ m) (h : ∀ a ∈ l, a ≤ m) :
    l.foldl max b ≤ m := by
  induction l generalizing b with
  | nil => exact hb
  | cons x xs ih =>
    exact ih (Nat.max_le.mpr ⟨hb, h x (List.mem_cons_self _ _)⟩)
      (fun a ha => h a (List.mem_cons_of_mem _ ha))

theorem alignedDim_pos {s : List Nat} (hpos : ∀ d ∈ s, 0 < d) (d : Nat) :
    0 < alignedDim s d := by
  unfold alignedDim
  rw [List.getD_eq_getElem?_getD]
  by_cases h : d < s.reverse.length
  · rw [List.getElem?_eq_getElem h, Option.getD_some]
    exact hpos _ (List.mem_reverse.mp (List.getElem_mem h))
  · rw [List.getElem?_eq_none (Nat.le_of_not_lt h), Option.getD_none]
    exact Nat.zero_lt_one

theorem alignedDim_of_len_le {s : List Nat} {d : Nat} (h : s.length ≤ d) :
    alignedDim s d = 1 := by
  unfold alignedDim
  rw [List.getD_eq_getElem?_getD,
    List.getElem?_eq_none (by rw [List.length_reverse]; exact h), Option.getD_none]

/-- With positive dimensions, the source's broadcast check decides exactly
the classical right-aligned rule. -/
theorem check_broadcast_iff (shapes : List (List Nat))
    (hpos : ∀ s ∈ shapes, ∀ d ∈ s, 0 < d) :
    check_broadcast_compatible shapes = true ↔ broadcastCompatSpec shapes := by
  unfold check_broadcast_compatible broadcastCompatSpec alignedDim
  simp only [List.all_eq_true, List.mem_range, List.mem_map,
    Bool.or_eq_true, decide_eq_true_eq]
  constructor
  · intro h d hd a ha b hb
    obtain h2 := h d hd
    rcases h2 _ ⟨a, ha, rfl⟩ with h3 | h3 <;>
      rcases h2 _ ⟨b, hb, rfl⟩ with h4 | h4
    · exact Or.inl (by rw [h3, h4])
    · exact Or.inr (Or.inr h4)
    · exact Or.inr (Or.inl h3)
    · exact Or.inr (Or.inl h3)
  · intro h d hd x hx
    obtain ⟨a, ha, rfl⟩ := hx
    by_cases hone : a.reverse.getD d 1 = 1
    · exact Or.inr hone
    · left
      apply Nat.le_antisymm
      · exact le_foldl_max _ _ (List.mem_map.mpr ⟨a, ha, rfl⟩)
      · apply foldl_max_le (Nat.zero_le _)
        intro y hy
        obtain ⟨b, hb, rfl⟩ := List.mem_map.mp hy
        rcases h d hd a ha b hb with h1 | h1 | h1
        · exact Nat.le_of_eq h1.symm
        · exact absurd h1 hone
        · rw [h1]
          have := alignedDim_pos (hpos a ha) d
          unfold alignedDim at this
          omega

/-- C2 (amended): for a non-empty list of array operands with positive
dimensions and no output argument, `validate_inputs` raises exactly when the
classical right-aligned broadcast rule rejects the operand shapes; when it
accepts, the returned shape is the first (chunked, if any exists) array
operand's shape — which equals the dimension-wise maximum only when that
operand attains it.  (With a zero-sized dimension the error behaviour also
differs from the classical rule, see the counterexample.) -/
theorem C2_validate_inputs (α : Type) (inputs : List (Str × Opr α))
    (hne : inputs ≠ [])
    (harr : ∀ p ∈ inputs, (Opr.isArr p.2) = true)
    (hpos : ∀ p ∈ inputs, ∀ d ∈ (Opr.shape p.2), 0 < d) :
    ((∃ e, validate_inputs inputs none = .error e) ↔
      ¬ broadcastCompatSpec (inputs.map (fun p => Opr.shape p.2))) ∧
    (∀ s fp, validate_inputs inputs none = .ok (s, fp) →
      s = firstReportedShape inputs) := by
  have hlen : ¬ inputs.length = 0 := by
    simpa [List.length_eq_zero] using hne
  have harrs : (inputs.map Prod.snd).filter Opr.isArr = inputs.map Prod.snd := by
    apply List.filter_eq_self.mpr
    intro a ha
    obtain ⟨p, hp, rfl⟩ := List.mem_map.mp ha
    exact harr p hp
  have hshapes : ((inputs.map Prod.snd).filter Opr.isArr).map Opr.shape
      = inputs.map (fun p => Opr.shape p.2) := by
    rw [harrs, List.map_map]
    rfl
  have hposS : ∀ s ∈ inputs.map (fun p => Opr.shape p.2), ∀ d ∈ s, 0 < d := by
    intro s hs
    obtain ⟨p, hp, rfl⟩ := List.mem_map.mp hs
    exact hpos p hp
  unfold validate_inputs firstReportedShape
  rw [if_neg hlen]
  by_cases hC : 1 < ((inputs.map Prod.snd).filter Opr.isArr).length ∧
      check_broadcast_compatible
        (((inputs.map Prod.snd).filter Opr.isArr).map Opr.shape) = false
  · rw [if_pos hC]
    refine ⟨⟨fun _ hspec => ?_, fun _ => ⟨_, rfl⟩⟩, fun s fp h => by cases h⟩
    rw [← check_broadcast_iff _ hposS, ← hshapes] at hspec
    rw [hC.2] at hspec
    cases hspec
  · rw [if_neg hC]
    have hspec : broadcastCompatSpec (inputs.map fun p => Opr.shape p.2) := by
      rw [not_and_or] at hC
      rcases hC with hC | hC
    
      · -- at most one array operand: the rule holds trivially
        have h1 : (inputs.map Prod.snd).length = inputs.length := List.length_map _ _
        rw [harrs] at hC
        have : inputs.length = 1 := by
          have := List.length_pos.mpr hne
          omega
        obtain ⟨p, hp⟩ := List.length_eq_one.mp this
        rw [hp]
        intro d _ a ha b hb
        simp only [List.map_cons, List.map_nil, List.mem_singleton] at ha hb
        subst ha
        subst hb
        exact Or.inl rfl
      · rw [← check_broadcast_iff _ hposS, ← hshapes]
        rcases Bool.eq_false_or_eq_true
          (check_broadcast_compatible
            (((inputs.map Prod.snd).filter Opr.isArr).map Opr.shape)) with h | h
        · exact h
        · exact absurd h hC
    constructor
    · constructor
      · rintro ⟨e, he⟩
        exfalso
        revert he
        split
        · split
          · rename_i hmapnil
            intro he
            rw [harrs] at hmapnil
            exact hne (List.map_eq_nil_iff.mp hmapnil)
          · intro he
            cases he
        · intro he
          cases he
      · intro hns
        exact absurd hspec hns
    · intro s fp h
      revert h
      split
      · rename_i hND
        split
        · intro h
          cases h
        · rename_i harrcons
          intro h
          cases h
          rw [harrcons] at hND
          simp only [hND, harrcons]
      · rename_i hND
        intro h
        cases h
        simp only [hND]

/-- C2 counterexample: the claim fails on the code in two concrete ways.
(1) With operand shapes `(3,)` and `(4,3)` — broadcast-compatible — the
returned shape is the first operand's shape `(3,)`, not the dimension-wise
maximum `(4,3)`.  (2) With shapes `(0,)` and `(1,)` the classical rule
admits the pair (one side is 1), yet `validate_inputs` raises. -/
theorem C2_counterexample :
    validate_inputs
        [("o0".data, Opr.ndA (⟨[3], [3], [3], fun _ => (0 : Int)⟩ : NDA Int)),
         ("o1".data, Opr.ndA ⟨[4, 3], [4, 3], [4, 3], fun _ => 0⟩)] none
      = .ok ([3], false) ∧
    compute_broadcast_shape [[3], [4, 3]] = [4, 3] ∧
    ([3] : List Nat) ≠ [4, 3] ∧
    broadcastCompatSpec [[0], [1]] ∧
    (∃ e, validate_inputs
        [("o0".data, Opr.ndA (⟨[0], [0], [0], fun _ => (0 : Int)⟩ : NDA Int)),
         ("o1".data, Opr.ndA ⟨[1], [1], [1], fun _ => 0⟩)] none
      = .error e) := by
  refine ⟨rfl, by decide, by decide, by decide, ⟨_, rfl⟩⟩

theorem C2_witness :
    validate_inputs
        [("o0".data, Opr.ndA (⟨[2], [2], [2], fun _ => (0 : Int)⟩ : NDA Int))] none
      = .ok ([2], true) ∧
    ([2] : List Nat) = firstReportedShape
        [("o0".data, Opr.ndA (⟨[2], [2], [2], fun _ => (0 : Int)⟩ : NDA Int))] := by
  have h := C2_validate_inputs Int
      [("o0".data, Opr.ndA ⟨[2], [2], [2], fun _ => 0⟩)]
      (List.cons_ne_nil _ _)
      (by
        intro p hp
        rw [List.mem_singleton] at hp
        subst hp
        rfl)
      (by
        intro p hp
        rw [List.mem_singleton] at hp
        subst hp
        intro d hd
        rcases List.mem_singleton.mp hd with rfl
        decide)
  exact ⟨rfl, h.2 [2] true rfl⟩

/-! ### The dispatcher `chunked_eval` (C5) -/

/-- The evaluator that `chunked_eval` dispatches to. -/
inductive EvalRoute
  | reduceSlices
  | slicesEval
  | chunksGetitem
  | chunksEval
deriving DecidableEq, Repr

/-- `out is None or isinstance(out, blosc2.NDArray)`. -/
def outOkForFast : Option (OutArg α) → Bool
  | none => true
  | some (.ndA _) => true
  | some (.npA _) => false

/-- The dispatch decision of `chunked_eval(expression, operands, item,
**kwargs)`: which evaluator is invoked.  `reduceArgs` models
`bool(kwargs.pop("_reduce_args", {}))`, `getitem` models `_getitem`,
`customChunks`/`customBlocks` model `kwargs.get("chunks"/"blocks")` being
present (not `None`), `out` models `_output`, and `item` is `None` or a
slice (the dispatcher only compares it with `slice(None)`; a tuple item
compares unequal exactly like a non-full slice).  A `validate_inputs`
error propagates before any dispatch. -/
def chunked_eval (operands : List (Str × Opr α)) (item : Option Slc)
    (reduceArgs getitem customChunks customBlocks : Bool)
    (out : Option (OutArg α)) : Except Str EvalRoute :=
  match validate_inputs operands out with
  | .error e => .error e
  | .ok (_, fast_path) =>
    if reduceArgs then .ok .reduceSlices
    else if item ≠ none ∧ item ≠ some ⟨none, none⟩ then .ok .slicesEval
    else if fast_path then
      if getitem then .ok .chunksGetitem
      else if customChunks = false ∧ customBlocks = false ∧
          outOkForFast out = true then .ok .chunksEval
      else .ok .slicesEval
    else .ok .slicesEval

/-- C5 (amended): the dispatch of `chunked_eval`, flattened.  Reductions win
over everything; then a present, non-full `item` forces `slices_eval`;
then, on the fast path, `getitem` dispatches to `chunks_getitem`
*unconditionally* (custom chunks/blocks and a dense `out` do **not** force
the generic path, contrary to the claim), while the writer path
`chunks_eval` additionally requires no custom chunks/blocks and an absent
or chunked output; every remaining case goes to `slices_eval`. -/
theorem C5_chunked_eval_route (α : Type) (operands : List (Str × Opr α))
    (item : Option Slc) (reduceArgs getitem customChunks customBlocks : Bool)
    (out : Option (OutArg α)) (s : List Nat) (fp : Bool)
    (hv : validate_inputs operands out = .ok (s, fp)) :
    chunked_eval operands item reduceArgs getitem customChunks customBlocks out
      = .ok (
        if reduceArgs then .reduceSlices
        else if item ≠ none ∧ item ≠ some ⟨none, none⟩ then .slicesEval
        else if fp = true ∧ getitem = true then .chunksGetitem
        else if fp = true ∧ getitem = false ∧ customChunks = false ∧
            customBlocks = false ∧ outOkForFast out = true then .chunksEval
        else .slicesEval) := by
  unfold chunked_eval
  rw [hv]
  by_cases hit : item ≠ none ∧ item ≠ some ⟨none, none⟩
  · cases reduceArgs <;> simp [hit]
  · cases reduceArgs <;> cases fp <;> cases getitem <;>
      by_cases hcc : customChunks = false ∧ customBlocks = false ∧
        outOkForFast out = true <;>
      simp [hit, hcc]

/-- C5 counterexample: with a fast-path operand set, `getitem=True`, and a
custom `chunks=` request (or a dense numpy `out`), the code still dispatches
to `chunks_getitem`, although the claim says `chunks_*` is invoked only when
no custom chunks/blocks were requested and the output is absent or a chunked
container. -/
theorem C5_counterexample :
    chunked_eval [("o0".data, Opr.ndA (⟨[2], [2], [2], fun _ => (0 : Int)⟩ : NDA Int))]
        none false true true false none = .ok .chunksGetitem ∧
    chunked_eval [("o0".data, Opr.ndA (⟨[2], [2], [2], fun _ => (0 : Int)⟩ : NDA Int))]
        none false true false false (some (.npA [2])) = .ok .chunksGetitem ∧
    EvalRoute.chunksGetitem ≠ EvalRoute.slicesEval := by
  refine ⟨rfl, rfl, by decide⟩

theorem C5_witness :
    chunked_eval [("o0".data, Opr.ndA (⟨[2], [2], [2], fun _ => (0 : Int)⟩ : NDA Int))]
        none true false false false none = .ok .reduceSlices := by
  have h := C5_chunked_eval_route Int
      [("o0".data, Opr.ndA ⟨[2], [2], [2], fun _ => 0⟩)]
      none true false false false none [2] true rfl
  simpa using h

/-! ### Operand fusion and the expression rewriter (C1, C6, C8, C9)

Operands of a `LazyExpr` are Python scalars or array objects.  Array
objects are compared by identity during fusion (the scoped
`_disable_overloaded_equal` mode makes `NDArray.__eq__` behave like `is`);
we give each array object an identity token.  A 0-dim array additionally
carries the scalar `value[()]` that the constructor renders. -/

inductive Opnd
  | scalar (n : Int)
  | arr (id : Nat) (shape : List Nat) (item0 : Int)
deriving DecidableEq, Repr

/-- `list(operands1.keys())[list(operands1.values()).index(v)]`, as an
`Option` (the surrounding Python code catches the `ValueError` of a missed
lookup); `.index` returns the first match. -/
def lookupName (operands1 : List (Str × Opnd)) (v : Opnd) : Option Str :=
  match operands1 with
  | [] => none
  | (k, w) :: rest => if w = v then some k else lookupName rest v

/-- The walk of `operands2` inside `fuse_operands`, carrying `new_pos`. -/
def fuseOperandsGo (operands1 : List (Str × Opnd)) :
    List (Str × Opnd) → Nat → List (Str × Opnd) × List (Str × Str)
  | [], _ => ([], [])
  | (k2, v2) :: rest, new_pos =>
    match lookupName operands1 v2 with
    | some k1 =>
      -- the operand is duplicated; keep track of it
      let r := fuseOperandsGo operands1 rest new_pos
      (r.1, (k2, k1) :: r.2)
    | none =>
      -- the value is not among operands1, so rebase it
      let r := fuseOperandsGo operands1 rest (new_pos + 1)
      (('o' :: natDigs new_pos, v2) :: r.1, r.2)

/-- `fuse_operands(operands1, operands2)` → `(new_operands, dup_operands)`:
walk `operands2` in order; operands already present in `operands1` (by
identity) map `name2 → name1` in `dup_operands`; the rest get fresh names
`o<len(operands1)>, o<len(operands1)+1>, …` in walk order. -/
def fuse_operands (operands1 operands2 : List (Str × Opnd)) :
    List (Str × Opnd) × List (Str × Str) :=
  fuseOperandsGo operands1 operands2 operands1.length

/-- The three characters `" )["` that terminate a placeholder token. -/
def isTermChar (c : Char) : Bool := c = ' ' || c = ')' || c = '['

def lookupStr (l : List (Str × Str)) (k : Str) : Option Str :=
  match l with
  | [] => none
  | (a, b) :: rest => if a = k then some b else lookupStr rest k

def lookupNat (l : List (Nat × Nat)) (k : Nat) : Option Nat :=
  match l with
  | [] => none
  | (a, b) :: rest => if a = k then some b else lookupNat rest k

/-- The `for i in range(len(expr))` loop of `fuse_expressions`, from index
`i`, with `skip_to_char`, `old_base`, `prev_pos`, and the accumulated
`new_expr`.

A character `o` preceded by start-of-string, `(` or a space starts a
placeholder; the scanner then looks for the first terminator in `" )["`
after it (`j` stays `i + 1` when none exists, as in the Python loop), steps
back one position when the scanned character `expr[i+j]` is `)`, and parses
`int(expr[i+1 : i+j+1])`.  `none` models the `ValueError` `int` raises when
that slice is not a digit run — which really happens, e.g. on the `or`
operator, whose `o` the scanner mistakes for a placeholder.  The
out-of-range read `expr[i+j]` (possible only for an unterminated
placeholder at `i > 0`, which no constructed expression contains) is
modelled as reading a blank.  In the `prev_pos` hit case Python re-assigns
`prev_pos[old_pos]` to the value it already has; the model leaves the map
unchanged. -/
def fuseExprGo (expr : Str) (new_base : Nat) (dup_op : List (Str × Str)) :
    Nat → Nat → Nat → Nat → List (Nat × Nat) → Str → Option Str
  | 0, _, _, _, _, acc => some acc
  | fuel+1, i, skip, old_base, prev_pos, acc =>
    if i < skip then
      fuseExprGo expr new_base dup_op fuel (i+1) skip old_base prev_pos acc
    else
      let c := expr.getD i ' '
      if c = 'o' then
        if 0 < i ∧ expr.getD (i-1) ' ' ≠ ' ' ∧ expr.getD (i-1) ' ' ≠ '(' then
          -- not a variable
          fuseExprGo expr new_base dup_op fuel (i+1) skip old_base prev_pos
            (acc ++ [c])
        else
          -- this is a variable; find the end of it
          let j0 : Nat :=
            match (expr.drop (i+1)).findIdx? isTermChar with
            | some k => k
            | none => i + 1
          let j := if expr.getD (i + j0) ' ' = ')' then j0 - 1 else j0
          match parseNatDigits ((expr.drop (i+1)).take j) with
          | none => none
          | some old_pos =>
            let old_op := 'o' :: natDigs old_pos
            match lookupStr dup_op old_op with
            | some rep =>
              fuseExprGo expr new_base dup_op fuel (i+1) (i+j+1) old_base prev_pos
                (acc ++ rep)
            | none =>
              match lookupNat prev_pos old_pos with
              | some new_pos =>
                -- keep track of duplicated old positions inside expr
                fuseExprGo expr new_base dup_op fuel (i+1) (i+j+1) old_base prev_pos
                  (acc ++ ('o' :: natDigs new_pos))
              | none =>
                fuseExprGo expr new_base dup_op fuel (i+1) (i+j+1) (old_base+1)
                  ((old_pos, old_base + new_base) :: prev_pos)
                  (acc ++ ('o' :: natDigs (old_base + new_base)))
      else
        fuseExprGo expr new_base dup_op fuel (i+1) skip old_base prev_pos
          (acc ++ [c])

/-- `fuse_expressions(expr, new_base, dup_op)`; `none` models the raised
`ValueError`.  The loop runs for `i in range(len(expr))`; the structural
fuel argument of `fuseExprGo` counts the remaining iterations
`len(expr) - i` (the loop exits exactly when it reaches 0). -/
def fuse_expressions (expr : Str) (new_base : Nat) (dup_op : List (Str × Str)) :
    Option Str :=
  fuseExprGo expr new_base dup_op expr.length 0 0 0 [] []

/-- The placeholder token stream of an expression: the ids of the `o<k>`
tokens that the scanner of `fuse_expressions` recognizes, in scan order
(`none` when the digit parse raises).  Derived from the same recognition
rule to state theorems about token streams. -/
def placeholderStreamGo (expr : Str) : Nat → Nat → Nat → List Nat → Option (List Nat)
  | 0, _, _, acc => some acc.reverse
  | fuel+1, i, skip, acc =>
    if i < skip then placeholderStreamGo expr fuel (i+1) skip acc
    else
      let c := expr.getD i ' '
      if c = 'o' then
        if 0 < i ∧ expr.getD (i-1) ' ' ≠ ' ' ∧ expr.getD (i-1) ' ' ≠ '(' then
          placeholderStreamGo expr fuel (i+1) skip acc
        else
          let j0 : Nat :=
            match (expr.drop (i+1)).findIdx? isTermChar with
            | some k => k
            | none => i + 1
          let j := if expr.getD (i + j0) ' ' = ')' then j0 - 1 else j0
          match parseNatDigits ((expr.drop (i+1)).take j) with
          | none => none
          | some old_pos => placeholderStreamGo expr fuel (i+1) (i+j+1) (old_pos :: acc)
      else placeholderStreamGo expr fuel (i+1) skip acc

def placeholderStream (expr : Str) : Option (List Nat) :=
  placeholderStreamGo expr expr.length 0 0 []

/-! ### The `LazyExpr` node: state, `update_expr`, constructor (C6, C8, C9) -/

/-- The mutable state of a `LazyExpr` node whose `operands` attribute has
been assigned: its expression string and its operand table. -/
structure LEState where
  expression : Str
  operands : List (Str × Opnd)
deriving DecidableEq, Repr

/-- A Python value appearing as `value1`/`value2` of a `new_op` triple:
a scalar, an array object, or another `LazyExpr`. -/
inductive UVal
  | scalar (n : Int)
  | arr (id : Nat) (shape : List Nat) (item0 : Int)
  | lex (st : LEState)
deriving DecidableEq, Repr

/-- `f"{v}"` for a Python int. -/
def renderInt (n : Int) : Str :=
  if n < 0 then '-' :: natDigs n.natAbs else natDigs n.natAbs

/-- `f"({l} {op} {r})"`. -/
def binExprStr (l op r : Str) : Str :=
  '(' :: l ++ (' ' :: op) ++ (' ' :: r) ++ [')']

/-- `LazyExpr.update_expr(self, new_op)` with `new_op = (value1, op, value2)`.
Python mutates the receiver and returns it (`return self`); the model
returns the receiver's final state.  `none` models an exception escaping
the body — in this body only the `int` `ValueError` raised inside
`fuse_expressions`.  Branches that would store a `LazyExpr` object itself
inside an operand table (never exercised by the module's call sites) are
modelled as `none` as well. -/
def update_expr (self : LEState) (value1 : UVal) (op : Str)
    (value2 : Option UVal) : Option LEState :=
  match value1, value2 with
  | .lex v1, some (.lex v2) =>
    -- Expression fusion: fuse operands, rebase expression 2, and update
    let fo := fuse_operands v1.operands v2.operands
    match fuse_expressions v2.expression v1.operands.length fo.2 with
    | none => none
    | some new_expr =>
      some ⟨binExprStr self.expression op new_expr, self.operands ++ fo.1⟩
  | .lex v1, _ =>
    if op = "not".data then
      some ⟨'(' :: op ++ self.expression ++ [')'], self.operands⟩
    else
      match value2 with
      | some (.scalar n) =>
        some ⟨binExprStr self.expression op (renderInt n), self.operands⟩
      | some (.arr id2 shape2 item2) =>
        if shape2 = [] then
          some ⟨binExprStr self.expression op (renderInt item2), self.operands⟩
        else
          match lookupName v1.operands (.arr id2 shape2 item2) with
          | some op_name =>
            some ⟨binExprStr self.expression op op_name, self.operands⟩
          | none =>
            let op_name := 'o' :: natDigs self.operands.length
            some ⟨binExprStr self.expression op op_name,
              self.operands ++ [(op_name, .arr id2 shape2 item2)]⟩
      | _ => none
  | _, _ =>
    match value1 with
    | .scalar n =>
      some ⟨binExprStr (renderInt n) op self.expression, self.operands⟩
    | .arr id1 shape1 item1 =>
      if shape1 = [] then
        some ⟨binExprStr (renderInt item1) op self.expression, self.operands⟩
      else
        match value2 with
        | some (.lex v2) =>
          let found := lookupName v2.operands (.arr id1 shape1 item1)
          let op_name := found.getD ('o' :: natDigs self.operands.length)
          let operands' :=
            match found with
            | some _ => self.operands
            | none => self.operands ++ [(op_name, Opnd.arr id1 shape1 item1)]
          if op = "[]".data then
            some ⟨'(' :: op_name ++ ('[' :: self.expression) ++ [']', ')'],
              operands'⟩
          else
            some ⟨binExprStr op_name op self.expression, operands'⟩
        | _ => none
    | .lex _ => none

/-- The value of the process-wide flag `blosc2._disable_overloaded_equal`
after `update_expr(self, new_op)` finishes: the method sets it to `True`
on its first line and back to `False` on its last line, with **no**
`try/finally`, so an exception escaping the body leaves it `True`. -/
def update_expr_flag_after (self : LEState) (value1 : UVal) (op : Str)
    (value2 : Option UVal) : Bool :=
  match update_expr self value1 op value2 with
  | some _ => false
  | none => true

/-- `LazyExpr.__add__(self, value)` = `self.update_expr((self, "+", value))`
(`__iadd__` has the identical body). -/
def LazyExpr_add (self : LEState) (value : UVal) : Option LEState :=
  update_expr self (.lex self) "+".data (some value)

/-- `LazyExpr.__mul__(self, value)`. -/
def LazyExpr_mul (self : LEState) (value : UVal) : Option LEState :=
  update_expr self (.lex self) "*".data (some value)

/-- `LazyExpr.__radd__(self, value)` = `self.update_expr((value, "+", self))`. -/
def LazyExpr_radd (self : LEState) (value : UVal) : Option LEState :=
  update_expr self value "+".data (some (.lex self))

/-! ### `LazyExpr.__init__` (C8) and the reduction methods (C7) -/

/-- The state `LazyExpr.__init__` leaves behind.  The Python constructor
does not always assign `self.operands`; `operands = none` models the
attribute being left unset (reading it later raises `AttributeError`). -/
structure InitState where
  expression : Str
  operands : Option (List (Str × Opnd))
deriving DecidableEq, Repr

/-- The operators handled by the two-argument-function branch. -/
def twoArgFns : List Str := ["arctan2".data, "contains".data, "pow".data]

def UVal.toOpnd : UVal → Option Opnd
  | .scalar n => some (.scalar n)
  | .arr id shape item0 => some (.arr id shape item0)
  | .lex _ => none

/-- `np.isscalar(v)`. -/
def UVal.isScalarV : UVal → Bool
  | .scalar _ => true
  | _ => false

/-- `hasattr(v, "shape") and v.shape == ()`. -/
def UVal.isZeroDim : UVal → Bool
  | .arr _ shape _ => shape = []
  | _ => false

def UVal.scalarVal : UVal → Int
  | .scalar n => n
  | _ => 0

/-- `v[()]` of a 0-dim array. -/
def UVal.zeroDimItem : UVal → Int
  | .arr _ _ item0 => item0
  | _ => 0

/-- `LazyExpr.__init__(self, new_op)` with `new_op = (value1, op, value2)`
(`LazyExpr(None)` yields the empty state and is not modelled here).
`.error` models raised exceptions and the few branches that would store a
`LazyExpr` object itself inside an operand table (the unary branch for a
`LazyExpr` argument even reads `self.expression` before any assignment,
an `AttributeError`); none of those branches is exercised by the module's
own call sites. -/
def LazyExpr_init (value1 : UVal) (op? : Option Str) (value2 : Option UVal) :
    Except Str InitState :=
  match value2 with
  | none =>
    match value1 with
    | .lex _ => .error "AttributeError: self.expression referenced before assignment".data
    | v =>
      match v.toOpnd with
      | some o =>
        .ok ⟨(match op? with
              | none => "o0".data
              | some op => op ++ "(o0)".data), some [("o0".data, o)]⟩
      | none => .error "unreachable".data
  | some v2 =>
    match op? with
    | none => .error "TypeError: binary new_op with op None".data
    | some op =>
      if op ∈ twoArgFns then
        if value1.isScalarV && v2.isScalarV then
          .ok ⟨op ++ "(o0, o1)".data, none⟩
        else if v2.isScalarV then
          match value1.toOpnd with
          | some o1 =>
            .ok ⟨op ++ "(o0, ".data ++ renderInt v2.scalarVal ++ [')'],
              some [("o0".data, o1)]⟩
          | none => .error "unmodelled: LazyExpr stored as operand".data
        else if value1.isScalarV then
          match v2.toOpnd with
          | some o2 =>
            .ok ⟨op ++ ['('] ++ renderInt value1.scalarVal ++ " , o0)".data,
              some [("o0".data, o2)]⟩
          | none => .error "unmodelled: LazyExpr stored as operand".data
        else
          match value1.toOpnd, v2.toOpnd with
          | some o1, some o2 =>
            .ok ⟨op ++ "(o0, o1)".data, some [("o0".data, o1), ("o1".data, o2)]⟩
          | _, _ => .error "unmodelled: LazyExpr stored as operand".data
      else
        if value1.isScalarV && v2.isScalarV then
          .ok ⟨binExprStr (renderInt value1.scalarVal) op (renderInt v2.scalarVal),
            none⟩
        else if v2.isScalarV then
          match value1.toOpnd with
          | some o1 =>
            .ok ⟨binExprStr "o0".data op (renderInt v2.scalarVal),
              some [("o0".data, o1)]⟩
          | none => .error "unmodelled: LazyExpr stored as operand".data
        else if v2.isZeroDim then
          match value1.toOpnd with
          | some o1 =>
            .ok ⟨binExprStr "o0".data op (renderInt v2.zeroDimItem),
              some [("o0".data, o1)]⟩
          | none => .error "unmodelled: LazyExpr stored as operand".data
        else if value1.isScalarV then
          match v2.toOpnd with
          | some o2 =>
            .ok ⟨binExprStr (renderInt value1.scalarVal) op "o0".data,
              some [("o0".data, o2)]⟩
          | none => .error "unmodelled: LazyExpr stored as operand".data
        else if value1.isZeroDim then
          match v2.toOpnd with
          | some o2 =>
            .ok ⟨binExprStr (renderInt value1.zeroDimItem) op "o0".data,
              some [("o0".data, o2)]⟩
          | none => .error "unmodelled: LazyExpr stored as operand".data
        else if value1 = v2 then
          -- `value1 is value2` (identity; array identity is the token `id`)
          match value1.toOpnd with
          | some o1 => .ok ⟨binExprStr "o0".data op "o0".data, some [("o0".data, o1)]⟩
          | none => .error "unmodelled: LazyExpr stored as operand".data
        else
          match value1, v2 with
          | .lex v1st, _ =>
            -- self.expression = value1.expression; self.operands = {"o0": value2}
            match v2.toOpnd with
            | some o2 =>
              match update_expr ⟨v1st.expression, [("o0".data, o2)]⟩
                  value1 op (some v2) with
              | some st => .ok ⟨st.expression, some st.operands⟩
              | none => .error "ValueError".data
            | none => .error "unmodelled: LazyExpr stored as operand".data
          | _, .lex v2st =>
            match value1.toOpnd with
            | some o1 =>
              match update_expr ⟨v2st.expression, [("o0".data, o1)]⟩
                  value1 op (some v2) with
              | some st => .ok ⟨st.expression, some st.operands⟩
              | none => .error "ValueError".data
            | none => .error "unmodelled: LazyExpr stored as operand".data
          | _, _ =>
            -- the very first time a LazyExpr is formed from two plain operands
            match value1.toOpnd, v2.toOpnd with
            | some o1, some o2 =>
              .ok ⟨binExprStr "o0".data op "o1".data,
                some [("o0".data, o1), ("o1".data, o2)]⟩
            | _, _ => .error "unreachable".data

inductive ReduceOp
  | SUM | PROD | MEAN | MAX | MIN | ANY | ALL
deriving DecidableEq, Repr

/-- The `_reduce_args` dict built by the reduction methods (the `dtype`
entry that `sum`/`prod` additionally carry is not modelled: no claim
mentions it). -/
structure RArgs where
  op : ReduceOp
  axis : Option (List Nat)
  keepdims : Bool
deriving DecidableEq, Repr

/-- `LazyExpr.min(self, axis=None, keepdims=False, **kwargs)`: builds
`reduce_args`, then raises `ValueError` if a `dtype` keyword argument is
present — *before* `self.eval` is invoked, so before any chunk is evaluated
or any output array created.  The `.ok` value is the eval request that
would be dispatched. -/
def LazyExpr_min (self : LEState) (axis : Option (List Nat)) (keepdims : Bool)
    (dtypeInKwargs : Bool) : Except Str (LEState × RArgs) :=
  let reduce_args : RArgs := ⟨.MIN, axis, keepdims⟩
  if dtypeInKwargs then .error "dtype is not supported for min method".data
  else .ok (self, reduce_args)

/-- `LazyExpr.max`, as `LazyExpr.min`. -/
def LazyExpr_max (self : LEState) (axis : Option (List Nat)) (keepdims : Bool)
    (dtypeInKwargs : Bool) : Except Str (LEState × RArgs) :=
  let reduce_args : RArgs := ⟨.MAX, axis, keepdims⟩
  if dtypeInKwargs then .error "dtype is not supported for max method".data
  else .ok (self, reduce_args)

/-- `LazyExpr.any`, as `LazyExpr.min`. -/
def LazyExpr_any (self : LEState) (axis : Option (List Nat)) (keepdims : Bool)
    (dtypeInKwargs : Bool) : Except Str (LEState × RArgs) :=
  let reduce_args : RArgs := ⟨.ANY, axis, keepdims⟩
  if dtypeInKwargs then .error "dtype is not supported for any method".data
  else .ok (self, reduce_args)

/-- `LazyExpr.all`, as `LazyExpr.min`. -/
def LazyExpr_all (self : LEState) (axis : Option (List Nat)) (keepdims : Bool)
    (dtypeInKwargs : Bool) : Except Str (LEState × RArgs) :=
  let reduce_args : RArgs := ⟨.ALL, axis, keepdims⟩
  if dtypeInKwargs then .error "dtype is not supported for all method".data
  else .ok (self, reduce_args)

theorem binExprStr_length (l op r : Str) :
    (binExprStr l op r).length = l.length + op.length + r.length + 4 := by
  simp [binExprStr, List.length_append]
  omega

/-- C7: calling `min`, `max`, `any` or `all` with a `dtype` keyword argument
raises `ValueError`, and the error surfaces before any chunk is evaluated
or any output array is created: the failing methods return no eval
request at all. -/
theorem C7_reduction_dtype_error (self : LEState) (axis : Option (List Nat))
    (keepdims : Bool) :
    LazyExpr_min self axis keepdims true
      = .error "dtype is not supported for min method".data ∧
    LazyExpr_max self axis keepdims true
      = .error "dtype is not supported for max method".data ∧
    LazyExpr_any self axis keepdims true
      = .error "dtype is not supported for any method".data ∧
    LazyExpr_all self axis keepdims true
      = .error "dtype is not supported for all method".data :=
  ⟨rfl, rfl, rfl, rfl⟩

/-- C6 (amended): `__add__` is not pure — like the in-place forms it calls
`update_expr`, which mutates the receiver and returns it.  Whenever
`e + v` succeeds, the receiver's expression string has strictly grown:
the returned node is `e` itself, changed. -/
theorem C6_add_mutates (self : LEState) (v : UVal) (st' : LEState)
    (h : LazyExpr_add self v = some st') :
    self.expression.length < st'.expression.length ∧
    st'.expression ≠ self.expression := by
  have hlen : self.expression.length < st'.expression.length := by
    cases v with
    | lex v2 =>
      have hred : LazyExpr_add self (.lex v2)
          = (match fuse_expressions v2.expression self.operands.length
                (fuse_operands self.operands v2.operands).2 with
             | none => none
             | some new_expr =>
               some ⟨binExprStr self.expression "+".data new_expr,
                 self.operands ++ (fuse_operands self.operands v2.operands).1⟩) := rfl
      rw [hred] at h
      split at h
      · cases h
      · cases h
        rw [binExprStr_length]
        omega
    | scalar n =>
      have hred : LazyExpr_add self (.scalar n)
          = some ⟨binExprStr self.expression "+".data (renderInt n), self.operands⟩ := rfl
      rw [hred] at h
      cases h
      rw [binExprStr_length]
      omega
    | arr id2 shape2 item2 =>
      have hred : LazyExpr_add self (.arr id2 shape2 item2)
          = (if shape2 = [] then
               some ⟨binExprStr self.expression "+".data (renderInt item2),
                 self.operands⟩
             else
               match lookupName self.operands (.arr id2 shape2 item2) with
               | some op_name =>
                 some ⟨binExprStr self.expression "+".data op_name, self.operands⟩
               | none =>
                 some ⟨binExprStr self.expression "+".data
                     ('o' :: natDigs self.operands.length),
                   self.operands ++ [('o' :: natDigs self.operands.length,
                     Opnd.arr id2 shape2 item2)]⟩) := rfl
      rw [hred] at h
      split at h
      · cases h
        rw [binExprStr_length]
        omega
      · split at h
        · cases h
          rw [binExprStr_length]
          omega
        · cases h
          rw [binExprStr_length]
          omega
  exact ⟨hlen, fun he => by rw [he] at hlen; omega⟩

/-- C6 counterexample: after `e + 2`, `e`'s expression string is the fused
one — the non-in-place operator mutated the receiver it returned. -/
theorem C6_counterexample :
    LazyExpr_add
        ⟨"(o0 + o1)".data, [("o0".data, .arr 1 [4] 0), ("o1".data, .arr 2 [4] 0)]⟩
        (.scalar 2)
      = some ⟨"((o0 + o1) + 2)".data,
          [("o0".data, .arr 1 [4] 0), ("o1".data, .arr 2 [4] 0)]⟩ ∧
    "((o0 + o1) + 2)".data ≠ "(o0 + o1)".data :=
  ⟨by decide, by decide⟩

theorem C6_witness :
    ("(o0 + o1)".data.length < "((o0 + o1) + 2)".data.length) ∧
    "((o0 + o1) + 2)".data ≠ "(o0 + o1)".data := by
  have h := C6_add_mutates
      ⟨"(o0 + o1)".data, [("o0".data, .arr 1 [4] 0), ("o1".data, .arr 2 [4] 0)]⟩
      (.scalar 2)
      ⟨"((o0 + o1) + 2)".data, [("o0".data, .arr 1 [4] 0), ("o1".data, .arr 2 [4] 0)]⟩
      (by decide)
  exact h

theorem renderInt_no_o {n : Int} {c : Char} (hc : c ∈ renderInt n) : c ≠ 'o' := by
  unfold renderInt at hc
  split at hc
  · rcases List.mem_cons.mp hc with rfl | hc
    · decide
    · exact (isDigit_not_special (mem_natDigs_isDigit hc)).2.2.2.1
  · exact (isDigit_not_special (mem_natDigs_isDigit hc)).2.2.2.1

theorem mem_binExprStr {c : Char} {l op r : Str} (hc : c ∈ binExprStr l op r) :
    c = '(' ∨ c ∈ l ∨ c = ' ' ∨ c ∈ op ∨ c ∈ r ∨ c = ')' := by
  unfold binExprStr at hc
  simp only [List.mem_cons, List.mem_append, List.mem_singleton] at hc
  tauto

/-- An expression with no `o` character produces no placeholder token. -/
theorem placeholderStreamGo_no_o (expr : Str) (hno : ∀ c ∈ expr, c ≠ 'o') :
    ∀ fuel i skip acc, placeholderStreamGo expr fuel i skip acc = some acc.reverse := by
  intro fuel
  induction fuel with
  | zero =>
    intro i skip acc
    rfl
  | succ fuel ih =>
    intro i skip acc
    have hc : expr.getD i ' ' ≠ 'o' := by
      by_cases hi : i < expr.length
      · have hg : expr.getD i ' ' = expr[i] := by
          rw [List.getD_eq_getElem?_getD, List.getElem?_eq_getElem hi, Option.getD_some]
        rw [hg]
        exact hno _ (List.getElem_mem hi)
      · rw [List.getD_eq_getElem?_getD, List.getElem?_eq_none (Nat.le_of_not_lt hi),
          Option.getD_none]
        decide
    simp only [placeholderStreamGo]
    by_cases hs : i < skip
    · rw [if_pos hs]
      exact ih _ _ _
    · rw [if_neg hs, if_neg hc]
      exact ih _ _ _

theorem placeholderStream_no_o (expr : Str) (hno : ∀ c ∈ expr, c ≠ 'o') :
    placeholderStream expr = some [] :=
  placeholderStreamGo_no_o expr hno expr.length 0 0 []

/-- C8 (amended): for scalar `v1`, `v2` and a binary operator outside
`{arctan2, contains, pow}` whose spelling contains no `o` character, the
constructed expression is the literal `(v1 op v2)` — it contains no `o` at
all, hence no placeholder token — and the `operands` attribute is left
*unset* (not an empty table).  (For the three two-argument functions the
expression is `op(o0, o1)`, which does contain placeholder names; see the
counterexample.) -/
theorem C8_scalar_scalar (n m : Int) (op : Str)
    (hop : op ∉ twoArgFns) (hopo : ∀ c ∈ op, c ≠ 'o') :
    LazyExpr_init (.scalar n) (some op) (some (.scalar m))
      = .ok ⟨binExprStr (renderInt n) op (renderInt m), none⟩ ∧
    placeholderStream (binExprStr (renderInt n) op (renderInt m)) = some [] ∧
    (∀ c ∈ binExprStr (renderInt n) op (renderInt m), c ≠ 'o') := by
  have hno : ∀ c ∈ binExprStr (renderInt n) op (renderInt m), c ≠ 'o' := by
    intro c hc
    rcases mem_binExprStr hc with rfl | hc | rfl | hc | hc | rfl
    · decide
    · exact renderInt_no_o hc
    · decide
    · exact hopo c hc
    · exact renderInt_no_o hc
    · decide
  refine ⟨?_, placeholderStream_no_o _ hno, hno⟩
  have hred : LazyExpr_init (.scalar n) (some op) (some (.scalar m))
      = (if op ∈ twoArgFns then
           Except.ok ⟨op ++ "(o0, o1)".data, none⟩
         else
           Except.ok ⟨binExprStr (renderInt n) op (renderInt m), none⟩) := rfl
  rw [hred, if_neg hop]

theorem C8_witness :
    LazyExpr_init (.scalar 1) (some "+".data) (some (.scalar 2))
      = .ok ⟨"(1 + 2)".data, none⟩ ∧
    placeholderStream "(1 + 2)".data = some [] := by
  have h := C8_scalar_scalar 1 2 "+".data (by decide) (by decide)
  refine ⟨?_, ?_⟩
  · rw [h.1]
    rfl
  · have h2 := h.2.1
    rwa [show binExprStr (renderInt 1) "+".data (renderInt 2) = "(1 + 2)".data
      from rfl] at h2

/-- C8 counterexample: `LazyExpr((2, "pow", 3))` — scalar-op-scalar — yields
the expression `"pow(o0, o1)"`, which contains the placeholder names `o0`
and `o1`, while `self.operands` is never assigned (`none`), i.e. not an
empty operand table. -/
theorem C8_counterexample :
    LazyExpr_init (.scalar 2) (some "pow".data) (some (.scalar 3))
      = .ok ⟨"pow(o0, o1)".data, none⟩ ∧
    List.IsInfix "o0".data "pow(o0, o1)".data ∧
    List.IsInfix "o1".data "pow(o0, o1)".data ∧
    (none : Option (List (Str × Opnd))) ≠ some [] :=
  ⟨rfl, by decide, by decide, by decide⟩

/-- C9: `update_expr` has no `try/finally`, so when the fusion body raises,
the process-wide flag `_disable_overloaded_equal` is left `True`.  The
concrete failing input below is reachable: fusing any expression with a
right operand built from the `or` operator makes the placeholder scanner of
`fuse_expressions` run `int("r")` (the `o` of `or` is preceded by a space,
so it is taken for a placeholder) and raise `ValueError`.  On normal
completion the flag is reset to `False` (third conjunct). -/
theorem C9_flag_leak :
    update_expr_flag_after
        ⟨"(o0 + o1)".data, [("o0".data, .arr 1 [4] 0), ("o1".data, .arr 2 [4] 0)]⟩
        (.lex ⟨"(o0 + o1)".data, [("o0".data, .arr 1 [4] 0), ("o1".data, .arr 2 [4] 0)]⟩)
        "*".data
        (some (.lex ⟨"(o0 or o1)".data,
          [("o0".data, .arr 3 [4] 0), ("o1".data, .arr 4 [4] 0)]⟩))
      = true ∧
    update_expr
        ⟨"(o0 + o1)".data, [("o0".data, .arr 1 [4] 0), ("o1".data, .arr 2 [4] 0)]⟩
        (.lex ⟨"(o0 + o1)".data, [("o0".data, .arr 1 [4] 0), ("o1".data, .arr 2 [4] 0)]⟩)
        "*".data
        (some (.lex ⟨"(o0 or o1)".data,
          [("o0".data, .arr 3 [4] 0), ("o1".data, .arr 4 [4] 0)]⟩))
      = none ∧
    update_expr_flag_after
        ⟨"(o0 + o1)".data, [("o0".data, .arr 1 [4] 0), ("o1".data, .arr 2 [4] 0)]⟩
        (.lex ⟨"(o0 + o1)".data, [("o0".data, .arr 1 [4] 0), ("o1".data, .arr 2 [4] 0)]⟩)
        "*".data
        (some (.lex ⟨"(o0 + o1)".data,
          [("o0".data, .arr 3 [4] 0), ("o1".data, .arr 4 [4] 0)]⟩))
      = false :=
  ⟨by decide, by decide, by decide⟩

/-! ### C1: placeholder rebasing

To reason about the character-level scanner we represent a constructed
expression as a list of tokens (`XItem`): placeholder tokens `o<n>` and
plain characters.  `renderX` is the rendered string; `WFX` captures how
every expression built by the `LazyExpr` constructors is laid out
(placeholders sit after start-of-string, `(` or a space and are followed
by one of the terminators `" )["`; no plain `o` sits in a recognizable
position).  `rebaseTok` is the token-level restatement of the rewriting
that `fuse_expressions` performs; the simulation theorem below proves the
character scanner computes exactly its rendering. -/

inductive XItem
  | ph (n : Nat)
  | ch (c : Char)
deriving DecidableEq, Repr

def renderX : List XItem → Str
  | [] => []
  | .ph n :: rest => 'o' :: natDigs n ++ renderX rest
  | .ch c :: rest => c :: renderX rest

/-- The placeholder ids of a token stream, in order. -/
def phIds : List XItem → List Nat
  | [] => []
  | .ph n :: rest => n :: phIds rest
  | .ch _ :: rest => phIds rest

/-- A previous character (or start of string) lets the scanner recognize a
placeholder. -/
def recogPrev : Option Char → Prop
  | none => True
  | some c => c = ' ' ∨ c = '('

instance : ∀ p, Decidable (recogPrev p)
  | none => isTrue trivial
  | some c => by unfold recogPrev; infer_instance

/-- Well-formed token streams, relative to the character preceding them
(`none` = start of string). -/
inductive WFX : Option Char → List XItem → Prop
  | nil (prev : Option Char) : WFX prev []
  | ch (prev : Option Char) (c : Char) (rest : List XItem)
      (hc : c = 'o' → ¬ recogPrev prev)
      (h : WFX (some c) rest) : WFX prev (.ch c :: rest)
  | ph (prev : Option Char) (n : Nat) (c : Char) (rest : List XItem)
      (hp : recogPrev prev)
      (hterm : isTermChar c = true)
      (h : WFX (some ((natDigs n).getLastD ' ')) (.ch c :: rest)) :
      WFX prev (.ph n :: .ch c :: rest)

/-- Generic first-index lookup (`list.index`, as an `Option`). -/
def idxOf? {α : Type} [DecidableEq α] : List α → α → Option Nat
  | [], _ => none
  | w :: rest, v => if w = v then some 0 else (idxOf? rest v).map (· + 1)

/-- The token-level restatement of the scanner's rewriting: `dupN` maps
duplicated old ids to their left-table ids; fresh ids are `old_base +
new_base` in first-occurrence order, recorded in `prev_pos`. -/
def rebaseTok (dupN : List (Nat × Nat)) (new_base : Nat) :
    List XItem → Nat → List (Nat × Nat) → List XItem
  | [], _, _ => []
  | .ch c :: rest, ob, pp => .ch c :: rebaseTok dupN new_base rest ob pp
  | .ph k :: rest, ob, pp =>
    match lookupNat dupN k with
    | some rep => .ph rep :: rebaseTok dupN new_base rest ob pp
    | none =>
      match lookupNat pp k with
      | some np2 => .ph np2 :: rebaseTok dupN new_base rest ob pp
      | none => .ph (ob + new_base) ::
          rebaseTok dupN new_base rest (ob+1) ((k, ob + new_base) :: pp)

/-- The same renaming, on the id stream alone, with the first-occurrence
list `seen` as state. -/
def rebaseIds (dupN : List (Nat × Nat)) (new_base : Nat) :
    List Nat → List Nat → List Nat
  | [], _ => []
  | k :: rest, seen =>
    match lookupNat dupN k with
    | some rep => rep :: rebaseIds dupN new_base rest seen
    | none =>
      match idxOf? seen k with
      | some r => (new_base + r) :: rebaseIds dupN new_base rest seen
      | none => (new_base + seen.length) :: rebaseIds dupN new_base rest (seen ++ [k])

/-- The final first-occurrence list of non-duplicate ids of a stream. -/
def freshSeen (dupN : List (Nat × Nat)) : List Nat → List Nat → List Nat
  | [], seen => seen
  | k :: rest, seen =>
    match lookupNat dupN k with
    | some _ => freshSeen dupN rest seen
    | none =>
      match idxOf? seen k with
      | some _ => freshSeen dupN rest seen
      | none => freshSeen dupN rest (seen ++ [k])

/-- Canonically named operand table `o<start>, o<start+1>, …`. -/
def canonFrom (start : Nat) : List Opnd → List (Str × Opnd)
  | [] => []
  | v :: rest => ('o' :: natDigs start, v) :: canonFrom (start+1) rest

/-- Token-level view of `fuse_operands` on canonically named tables: the
positions of `vals2` whose value occurs in `vals1` (by identity), paired
with the first such index. -/
def dupNOfGo (vals1 : List Opnd) : List Opnd → Nat → List (Nat × Nat)
  | [], _ => []
  | v :: rest, j =>
    match idxOf? vals1 v with
    | some i => (j, i) :: dupNOfGo vals1 rest (j+1)
    | none => dupNOfGo vals1 rest (j+1)

def dupNOf (vals1 vals2 : List Opnd) : List (Nat × Nat) :=
  dupNOfGo vals1 vals2 0

/-- The values of `vals2` that are new relative to `vals1`, in order. -/
def nonDupVals (vals1 vals2 : List Opnd) : List Opnd :=
  vals2.filter (fun v => (idxOf? vals1 v).isNone)

/-- The positions of `vals2` holding new values, in increasing order. -/
def nonDupPositionsGo (vals1 : List Opnd) : List Opnd → Nat → List Nat
  | [], _ => []
  | v :: rest, j =>
    match idxOf? vals1 v with
    | some _ => nonDupPositionsGo vals1 rest (j+1)
    | none => j :: nonDupPositionsGo vals1 rest (j+1)

def nonDupPositions (vals1 vals2 : List Opnd) : List Nat :=
  nonDupPositionsGo vals1 vals2 0

/-! Helper lemmas about list indexing used by the simulation proof. -/

def phName (n : Nat) : Str := 'o' :: natDigs n

theorem phName_injective {a b : Nat} (h : phName a = phName b) : a = b :=
  natDigs_injective (by injection h)

theorem getD_append_add (pre l : Str) (t : Nat) (d : Char) :
    (pre ++ l).getD (pre.length + t) d = l.getD t d := by
  rw [List.getD_eq_getElem?_getD, List.getD_eq_getElem?_getD,
    List.getElem?_append_right (Nat.le_add_right _ _), Nat.add_sub_cancel_left]

theorem getD_append_lt (pre l : Str) (t : Nat) (ht : t < pre.length) (d : Char) :
    (pre ++ l).getD t d = pre.getD t d := by
  rw [List.getD_eq_getElem?_getD, List.getD_eq_getElem?_getD,
    List.getElem?_append_left ht]

theorem getD_last_of_ne_nil (pre : Str) (h : pre ≠ []) (d : Char) :
    pre.getD (pre.length - 1) d = pre.getLastD d := by
  induction pre with
  | nil => exact absurd rfl h
  | cons a l ih =>
    cases l with
    | nil => rfl
    | cons b m =>
      rw [List.getLastD_cons]
      have : (a :: b :: m).length - 1 = (b :: m).length - 1 + 1 := by
        simp [List.length_cons]
      rw [this]
      show (b :: m).getD ((b :: m).length - 1) d = _
      rw [ih (by simp), List.getLastD_cons]
      exact (List.getLastD_cons a b m).symm

theorem getLastD_append_ne_nil (l1 l2 : Str) (h : l2 ≠ []) (d : Char) :
    (l1 ++ l2).getLastD d = l2.getLastD d := by
  rw [List.getLastD_eq_getLast?, List.getLastD_eq_getLast?, List.getLast?_append]
  cases hl : l2.getLast? with
  | none => exact absurd (List.getLast?_eq_none_iff.mp hl) h
  | some x => rfl

theorem drop_append_add (pre l : Str) (t : Nat) :
    (pre ++ l).drop (pre.length + t) = l.drop t := by
  rw [← List.drop_drop, List.drop_left]

theorem findIdx?_append_all_false (p : Char → Bool) (xs ys : Str)
    (hxs : ∀ x ∈ xs, p x = false) :
    List.findIdx? p (xs ++ ys) = (List.findIdx? p ys).map (· + xs.length) := by
  induction xs with
  | nil => simp
  | cons x rest ih =>
    rw [List.cons_append, List.findIdx?_cons,
      if_neg (by rw [hxs x (List.mem_cons_self _ _)]; exact Bool.false_ne_true),
      List.findIdx?_succ, ih (fun y hy => hxs y (List.mem_cons_of_mem _ hy))]
    cases List.findIdx? p ys <;> simp
    omega

theorem natDigs_not_term {n : Nat} {c : Char} (hc : c ∈ natDigs n) :
    isTermChar c = false := by
  obtain ⟨h1, h2, h3, _, _⟩ := isDigit_not_special (mem_natDigs_isDigit hc)
  simp [isTermChar, h1, h2, h3]

theorem lookupStr_phMap (dupN : List (Nat × Nat)) (k : Nat) :
    lookupStr (dupN.map (fun p => (phName p.1, phName p.2))) ('o' :: natDigs k)
      = (lookupNat dupN k).map phName := by
  rw [show ('o' :: natDigs k : Str) = phName k from rfl]
  induction dupN with
  | nil => rfl
  | cons q rest ih =>
    simp only [List.map_cons, lookupStr, lookupNat]
    by_cases h : q.1 = k
    · subst h
      rw [if_pos rfl, if_pos rfl, Option.map_some']
    · rw [if_neg (fun he => h (phName_injective he)), if_neg h, ih]

theorem rebaseTok_ph (dupN : List (Nat × Nat)) (nb k : Nat) (rest : List XItem)
    (ob : Nat) (pp : List (Nat × Nat)) :
    rebaseTok dupN nb (.ph k :: rest) ob pp =
      match lookupNat dupN k with
      | some rep => .ph rep :: rebaseTok dupN nb rest ob pp
      | none =>
        match lookupNat pp k with
        | some np2 => .ph np2 :: rebaseTok dupN nb rest ob pp
        | none => .ph (ob + nb) ::
            rebaseTok dupN nb rest (ob+1) ((k, ob + nb) :: pp) := rfl

/-- Skipping steps: while `i ≤ skip ≤ length`, the loop just advances `i`
to `skip` without touching the state. -/
theorem fuseExprGo_skip (expr : Str) (nb : Nat) (dup : List (Str × Str))
    (skip : Nat) (hs : skip ≤ expr.length) (ob : Nat) (pp : List (Nat × Nat))
    (acc : Str) :
    ∀ fuel i, i + fuel = expr.length → i ≤ skip →
    fuseExprGo expr nb dup fuel i skip ob pp acc
      = fuseExprGo expr nb dup (expr.length - skip) skip skip ob pp acc := by
  intro fuel
  induction fuel with
  | zero =>
    intro i hif hisk
    have h1 : i = expr.length := by omega
    have h2 : skip = expr.length := by omega
    subst h2
    rw [h1]
    have h3 : expr.length - expr.length = 0 := by omega
    rw [h3]
  | succ fuel ih =>
    intro i hif hisk
    rcases Nat.lt_or_ge i skip with hlt | hge
    · show (if i < skip then fuseExprGo expr nb dup fuel (i+1) skip ob pp acc
            else _) = _
      rw [if_pos hlt]
      exact ih (i+1) (by omega) (by omega)
    · have : i = skip := by omega
      subst this
      have : expr.length - i = fuel + 1 := by omega
      rw [this]

theorem getLastD_ne_nil_eq (l : Str) (h : l ≠ []) (d1 d2 : Char) :
    l.getLastD d1 = l.getLastD d2 := by
  rw [List.getLastD_eq_getLast?, List.getLastD_eq_getLast?]
  cases hl : l.getLast? with
  | none => exact absurd (List.getLast?_eq_none_iff.mp hl) h
  | some x => rfl

/-- The one-step unfolding of `fuseExprGo`. -/
theorem fuseExprGo_succ (expr : Str) (nb : Nat) (dup : List (Str × Str))
    (fuel i skip ob : Nat) (pp : List (Nat × Nat)) (acc : Str) :
    fuseExprGo expr nb dup (fuel+1) i skip ob pp acc
      = if i < skip then fuseExprGo expr nb dup fuel (i+1) skip ob pp acc
        else
          let c := expr.getD i ' '
          if c = 'o' then
            if 0 < i ∧ expr.getD (i-1) ' ' ≠ ' ' ∧ expr.getD (i-1) ' ' ≠ '(' then
              fuseExprGo expr nb dup fuel (i+1) skip ob pp (acc ++ [c])
            else
              let j0 : Nat :=
                match (expr.drop (i+1)).findIdx? isTermChar with
                | some k => k
                | none => i + 1
              let j := if expr.getD (i + j0) ' ' = ')' then j0 - 1 else j0
              match parseNatDigits ((expr.drop (i+1)).take j) with
              | none => none
              | some old_pos =>
                match lookupStr dup ('o' :: natDigs old_pos) with
                | some rep =>
                  fuseExprGo expr nb dup fuel (i+1) (i+j+1) ob pp (acc ++ rep)
                | none =>
                  match lookupNat pp old_pos with
                  | some new_pos =>
                    fuseExprGo expr nb dup fuel (i+1) (i+j+1) ob pp
                      (acc ++ ('o' :: natDigs new_pos))
                  | none =>
                    fuseExprGo expr nb dup fuel (i+1) (i+j+1) (ob+1)
                      ((old_pos, ob + nb) :: pp)
                      (acc ++ ('o' :: natDigs (ob + nb)))
          else fuseExprGo expr nb dup fuel (i+1) skip ob pp (acc ++ [c]) := rfl

/-- The scanner of `fuse_expressions`, run on the rendering of a
well-formed token stream appended to an already-processed prefix, computes
exactly the rendering of the token-level rebase `rebaseTok`. -/
theorem fuseExprGo_render (nb : Nat) (dupN : List (Nat × Nat)) :
    ∀ (items : List XItem) (prev : Option Char), WFX prev items →
    ∀ (pre : Str),
      ((pre = [] ∧ prev = none) ∨ (pre ≠ [] ∧ prev = some (pre.getLastD ' '))) →
    ∀ (skip : Nat), skip ≤ pre.length →
    ∀ (ob : Nat) (pp : List (Nat × Nat)) (acc : Str),
      fuseExprGo (pre ++ renderX items) nb
          (dupN.map (fun p => (phName p.1, phName p.2)))
          (renderX items).length pre.length skip ob pp acc
        = some (acc ++ renderX (rebaseTok dupN nb items ob pp)) := by
  intro items prev hwf
  induction hwf with
  | nil prev =>
    intro pre hprev skip hskip ob pp acc
    show fuseExprGo _ _ _ (renderX []).length _ _ _ _ _ = _
    show some acc = _
    rw [show rebaseTok dupN nb [] ob pp = [] from rfl]
    rw [show renderX [] = [] from rfl, List.append_nil]
  | ch prev c rest hc hwf' ih =>
    intro pre hprev skip hskip ob pp acc
    have hexpr : pre ++ renderX (.ch c :: rest) = (pre ++ [c]) ++ renderX rest := by
      rw [show renderX (.ch c :: rest) = c :: renderX rest from rfl]
      simp
    have hlen : (renderX (.ch c :: rest)).length = (renderX rest).length + 1 := by
      rw [show renderX (.ch c :: rest) = c :: renderX rest from rfl]
      simp
    have hg : (pre ++ renderX (.ch c :: rest)).getD pre.length ' ' = c := by
      have h0 := getD_append_add pre (renderX (.ch c :: rest)) 0 ' '
      rw [Nat.add_zero] at h0
      rw [h0]
      rfl
    have htail : fuseExprGo (pre ++ renderX (.ch c :: rest)) nb
        (dupN.map (fun p => (phName p.1, phName p.2)))
        (renderX rest).length (pre.length + 1) skip ob pp (acc ++ [c])
        = some (acc ++ renderX (rebaseTok dupN nb (.ch c :: rest) ob pp)) := by
      rw [hexpr]
      have hlen2 : pre.length + 1 = (pre ++ [c]).length := by simp
      rw [hlen2]
      rw [ih (pre ++ [c]) (Or.inr ⟨by simp, by rw [List.getLastD_concat]⟩)
        skip (by simp; omega) ob pp (acc ++ [c])]
      rw [show rebaseTok dupN nb (.ch c :: rest) ob pp
          = .ch c :: rebaseTok dupN nb rest ob pp from rfl]
      rw [show renderX (.ch c :: rebaseTok dupN nb rest ob pp)
          = c :: renderX (rebaseTok dupN nb rest ob pp) from rfl]
      simp
    rw [hlen, fuseExprGo_succ, if_neg (by omega)]
    simp only [hg]
    by_cases hco : c = 'o'
    · have hnr : ¬ recogPrev prev := hc hco
      rcases hprev with ⟨hpe, rfl⟩ | ⟨hpe, hpv⟩
      · exact absurd trivial hnr
      · rw [if_pos hco, if_pos ?hcond]
        case hcond =>
          refine ⟨by
            cases pre with
            | nil => exact absurd rfl hpe
            | cons x xs => simp, ?_, ?_⟩
          · have hgl : (pre ++ renderX (.ch c :: rest)).getD (pre.length - 1) ' '
                = pre.getLastD ' ' := by
              rw [getD_append_lt _ _ _ (by
                cases pre with
                | nil => exact absurd rfl hpe
                | cons x xs => simp) ' ', getD_last_of_ne_nil pre hpe]
            rw [hgl]
            intro heq
            exact hnr (by rw [hpv, heq]; exact Or.inl rfl)
          · have hgl : (pre ++ renderX (.ch c :: rest)).getD (pre.length - 1) ' '
                = pre.getLastD ' ' := by
              rw [getD_append_lt _ _ _ (by
                cases pre with
                | nil => exact absurd rfl hpe
                | cons x xs => simp) ' ', getD_last_of_ne_nil pre hpe]
            rw [hgl]
            intro heq
            exact hnr (by rw [hpv, heq]; exact Or.inr rfl)
        exact htail
    · rw [if_neg hco]
      exact htail
  | ph prev n c rest hp hterm hwf' ih =>
    intro pre hprev skip hskip ob pp acc
    have hrend : renderX (.ph n :: .ch c :: rest)
        = 'o' :: (natDigs n ++ (c :: renderX rest)) := by
      rw [show renderX (.ph n :: .ch c :: rest)
          = 'o' :: natDigs n ++ renderX (.ch c :: rest) from rfl]
      rw [show renderX (.ch c :: rest) = c :: renderX rest from rfl]
      rfl
    have hflen : (renderX (.ph n :: .ch c :: rest)).length
        = ((natDigs n).length + (renderX rest).length + 1) + 1 := by
      rw [hrend]
      simp only [List.length_cons, List.length_append]
      omega
    have hg0 : (pre ++ renderX (.ph n :: .ch c :: rest)).getD pre.length ' ' = 'o' := by
      have h0 := getD_append_add pre (renderX (.ph n :: .ch c :: rest)) 0 ' '
      rw [Nat.add_zero] at h0
      rw [h0, hrend]
      rfl
    have hdrop : (pre ++ renderX (.ph n :: .ch c :: rest)).drop (pre.length + 1)
        = natDigs n ++ (c :: renderX rest) := by
      rw [hrend, drop_append_add pre _ 1]
      rfl
    have hfind : List.findIdx? isTermChar
        ((pre ++ renderX (.ph n :: .ch c :: rest)).drop (pre.length + 1))
        = some (natDigs n).length := by
      rw [hdrop, findIdx?_append_all_false _ _ _ (fun x hx => natDigs_not_term hx),
        List.findIdx?_cons, if_pos hterm]
      simp
    have hlastdig : (pre ++ renderX (.ph n :: .ch c :: rest)).getD
        (pre.length + (natDigs n).length) ' ' = (natDigs n).getLastD ' ' := by
      rw [hrend, getD_append_add]
      obtain ⟨d0, ds, hD⟩ : ∃ d0 ds, natDigs n = d0 :: ds := by
        cases hDn : natDigs n with
        | nil => exact absurd hDn (natDigs_ne_nil n)
        | cons d0 ds => exact ⟨d0, ds, rfl⟩
      rw [hD]
      simp only [List.length_cons]
      show ((d0 :: ds) ++ (c :: renderX rest)).getD ds.length ' ' = _
      rw [getD_append_lt _ _ _ (by simp) ' ']
      rw [show ds.length = (d0 :: ds).length - 1 from by simp]
      rw [getD_last_of_ne_nil _ (by simp) ' ']
    have hlastdig_ne : (natDigs n).getLastD ' ' ≠ ')' := by
      have hmem := List.getLastD_mem_cons (natDigs n) ' '
      rcases List.mem_cons.mp hmem with h | h
      · rw [h]; decide
      · exact (isDigit_not_special (mem_natDigs_isDigit h)).2.1
    have htake : ((pre ++ renderX (.ph n :: .ch c :: rest)).drop
        (pre.length + 1)).take (natDigs n).length = natDigs n := by
      rw [hdrop, List.take_left]
    have hparse : parseNatDigits
        (((pre ++ renderX (.ph n :: .ch c :: rest)).drop (pre.length + 1)).take
          (natDigs n).length) = some n := by
      rw [htake, parseNatDigits_natDigs]
    -- the continuation after consuming the placeholder token
    have hcont : ∀ (tok ob2 : Nat) (pp2 : List (Nat × Nat)),
        rebaseTok dupN nb (.ph n :: .ch c :: rest) ob pp
          = .ph tok :: rebaseTok dupN nb (.ch c :: rest) ob2 pp2 →
        fuseExprGo (pre ++ renderX (.ph n :: .ch c :: rest)) nb
            (dupN.map (fun p => (phName p.1, phName p.2)))
            ((natDigs n).length + (renderX rest).length + 1)
            (pre.length + 1) (pre.length + (natDigs n).length + 1) ob2 pp2
            (acc ++ phName tok)
          = some (acc ++ renderX (rebaseTok dupN nb (.ph n :: .ch c :: rest) ob pp)) := by
      intro tok ob2 pp2 hreb
      have hel : (pre ++ renderX (.ph n :: .ch c :: rest)).length
          = pre.length + ((natDigs n).length + (renderX rest).length + 2) := by
        rw [List.length_append, hflen]
        try omega
      have hskipeq := fuseExprGo_skip (pre ++ renderX (.ph n :: .ch c :: rest)) nb
        (dupN.map (fun p => (phName p.1, phName p.2)))
        (pre.length + (natDigs n).length + 1) (by rw [hel]; omega) ob2 pp2
        (acc ++ phName tok) ((natDigs n).length + (renderX rest).length + 1)
        (pre.length + 1) (by rw [hel]; omega) (by omega)
      rw [hskipeq]
      have hjump : (pre ++ renderX (.ph n :: .ch c :: rest)).length
          - (pre.length + (natDigs n).length + 1)
          = (renderX (.ch c :: rest)).length := by
        rw [hel, show renderX (.ch c :: rest) = c :: renderX rest from rfl]
        simp only [List.length_cons]
        omega
      rw [hjump]
      have hexpr2 : pre ++ renderX (.ph n :: .ch c :: rest)
          = (pre ++ phName n) ++ renderX (.ch c :: rest) := by
        rw [hrend, show renderX (.ch c :: rest) = c :: renderX rest from rfl]
        rw [List.append_assoc]
        rfl
      have hlen3 : pre.length + (natDigs n).length + 1 = (pre ++ phName n).length := by
        rw [List.length_append]
        rw [show (phName n).length = (natDigs n).length + 1 from by
          rw [phName]; simp]
        omega
      rw [hexpr2, hlen3]
      rw [ih (pre ++ phName n)
        (Or.inr ⟨by simp [phName], by
          rw [getLastD_append_ne_nil pre (phName n) (by simp [phName]) ' ']
          simp only [phName, List.getLastD_cons]
          exact congrArg some
            (getLastD_ne_nil_eq (natDigs n) (natDigs_ne_nil n) ' ' 'o')⟩)
        (pre ++ phName n).length (Nat.le_refl _) ob2 pp2 (acc ++ phName tok)]
      rw [hreb]
      rw [show renderX (.ph tok :: rebaseTok dupN nb (.ch c :: rest) ob2 pp2)
          = 'o' :: natDigs tok ++ renderX (rebaseTok dupN nb (.ch c :: rest) ob2 pp2)
        from rfl]
      simp [phName]
    have hrec : ¬(0 < pre.length ∧
        (pre ++ renderX (.ph n :: .ch c :: rest)).getD (pre.length - 1) ' ' ≠ ' ' ∧
        (pre ++ renderX (.ph n :: .ch c :: rest)).getD (pre.length - 1) ' ' ≠ '(') := by
      rcases hprev with ⟨hpe, hpn⟩ | ⟨hpe, hpv⟩
      · subst hpe
        intro hAnd
        exact absurd hAnd.1 (by simp)
      · have hgl : (pre ++ renderX (.ph n :: .ch c :: rest)).getD (pre.length - 1) ' '
            = pre.getLastD ' ' := by
          rw [getD_append_lt _ _ _ (by
            cases pre with
            | nil => exact absurd rfl hpe
            | cons x xs => simp) ' ', getD_last_of_ne_nil pre hpe]
        rw [hpv] at hp
        intro hAnd
        rcases hp with h | h
        · exact hAnd.2.1 (by rw [hgl]; exact h)
        · exact hAnd.2.2 (by rw [hgl]; exact h)
    rw [hflen, fuseExprGo_succ, if_neg (by omega)]
    simp only [hg0]
    rw [if_pos trivial, if_neg hrec]
    simp only [hfind]
    rw [if_neg (by rw [hlastdig]; exact hlastdig_ne)]
    simp only [hparse]
    rw [lookupStr_phMap]
    cases hdup : lookupNat dupN n with
    | some rep =>
      simp only [Option.map_some']
      exact hcont rep ob pp (by rw [rebaseTok_ph, hdup])
    | none =>
      simp only [Option.map_none']
      cases hpp : lookupNat pp n with
      | some np2 =>
        exact hcont np2 ob pp (by rw [rebaseTok_ph, hdup, hpp])
      | none =>
        exact hcont (ob + nb) (ob + 1) ((n, ob + nb) :: pp)
          (by rw [rebaseTok_ph, hdup, hpp])

/-! ### C1: properties of the id-level rebasing and the canonical tables -/

/-- Key lookup in an association table (Python `d[name]`, as an `Option`). -/
def lookupKey {β : Type} (l : List (Str × β)) (k : Str) : Option β :=
  match l with
  | [] => none
  | (a, b) :: rest => if a = k then some b else lookupKey rest k

theorem idxOf?_eq_none_iff {α : Type} [DecidableEq α] (l : List α) (v : α) :
    idxOf? l v = none ↔ v ∉ l := by
  induction l with
  | nil => simp [idxOf?]
  | cons w rest ih =>
    simp only [idxOf?, List.mem_cons]
    by_cases h : w = v
    · simp [h]
    · simp only [if_neg h, Option.map_eq_none', ih]
      constructor
      · intro hn hc
        rcases hc with hc | hc
        · exact h hc.symm
        · exact hn hc
      · exact fun hn hc => hn (Or.inr hc)

theorem idxOf?_spec {α : Type} [DecidableEq α] (l : List α) (v d : α) :
    ∀ r, idxOf? l v = some r → r < l.length ∧ l.getD r d = v := by
  induction l with
  | nil => intro r h; cases h
  | cons w rest ih =>
    intro r h
    simp only [idxOf?] at h
    by_cases hw : w = v
    · rw [if_pos hw] at h
      cases h
      exact ⟨by simp, hw⟩
    · rw [if_neg hw] at h
      cases hr : idxOf? rest v with
      | none => rw [hr] at h; cases h
      | some r0 =>
        rw [hr] at h
        simp only [Option.map_some'] at h
        cases h
        obtain ⟨h1, h2⟩ := ih r0 hr
        refine ⟨by simp only [List.length_cons]; omega, ?_⟩
        rw [List.getD_cons_succ]
        exact h2

theorem mem_of_idxOf?_some {α : Type} [DecidableEq α] {l : List α} {v : α} {r : Nat}
    (h : idxOf? l v = some r) : v ∈ l := by
  by_contra hm
  rw [(idxOf?_eq_none_iff l v).mpr hm] at h
  cases h

theorem idxOf?_some_of_mem {α : Type} [DecidableEq α] {l : List α} {v : α}
    (h : v ∈ l) : ∃ r, idxOf? l v = some r := by
  cases hr : idxOf? l v with
  | none => exact absurd h ((idxOf?_eq_none_iff l v).mp hr)
  | some r => exact ⟨r, rfl⟩

theorem idxOf?_append_some {α : Type} [DecidableEq α] (l l2 : List α) (v : α) :
    ∀ r, idxOf? l v = some r → idxOf? (l ++ l2) v = some r := by
  induction l with
  | nil => intro r h; cases h
  | cons w rest ih =>
    intro r h
    simp only [idxOf?, List.cons_append, List.append_eq] at h ⊢
    by_cases hw : w = v
    · rw [if_pos hw] at h ⊢; exact h
    · rw [if_neg hw] at h ⊢
      cases hr : idxOf? rest v with
      | none => rw [hr] at h; cases h
      | some r0 =>
        rw [hr] at h
        rw [ih r0 hr]
        exact h

theorem idxOf?_append_self {α : Type} [DecidableEq α] (l l2 : List α) (v : α)
    (h : v ∉ l) : idxOf? (l ++ v :: l2) v = some l.length := by
  induction l with
  | nil => simp [idxOf?]
  | cons w rest ih =>
    simp only [List.cons_append, List.append_eq, idxOf?]
    rw [if_neg (fun hw => h (List.mem_cons.mpr (Or.inl hw.symm)))]
    rw [ih (fun hm => h (List.mem_cons_of_mem _ hm))]
    simp [List.length_cons]

theorem idxOf?_append_singleton_ne {α : Type} [DecidableEq α] (l : List α) (a v : α)
    (h : v ≠ a) : idxOf? (l ++ [a]) v = idxOf? l v := by
  induction l with
  | nil =>
    simp only [List.nil_append, idxOf?]
    rw [if_neg (fun he => h he.symm)]
    rfl
  | cons w rest ih =>
    simp only [List.cons_append, List.append_eq, idxOf?]
    by_cases hw : w = v
    · rw [if_pos hw, if_pos hw]
    · rw [if_neg hw, if_neg hw, ih]

theorem lookupNat_eq_none_of_keys {l : List (Nat × Nat)} {k : Nat}
    (h : ∀ p ∈ l, p.1 ≠ k) : lookupNat l k = none := by
  induction l with
  | nil => rfl
  | cons q rest ih =>
    simp only [lookupNat]
    rw [if_neg (h q (List.mem_cons_self q rest))]
    exact ih (fun p hp => h p (List.mem_cons_of_mem q hp))

theorem lookupNat_some_mem {l : List (Nat × Nat)} {k v : Nat}
    (h : lookupNat l k = some v) : (k, v) ∈ l := by
  induction l with
  | nil => cases h
  | cons q rest ih =>
    simp only [lookupNat] at h
    by_cases hq : q.1 = k
    · rw [if_pos hq] at h
      injection h with h2
      exact List.mem_cons.mpr (Or.inl (by rw [← hq, ← h2]))
    · rw [if_neg hq] at h
      exact List.mem_cons_of_mem q (ih h)

theorem lookupKey_append_some {β : Type} (l1 l2 : List (Str × β)) (k : Str) (v : β)
    (h : lookupKey l1 k = some v) : lookupKey (l1 ++ l2) k = some v := by
  induction l1 with
  | nil => cases h
  | cons q rest ih =>
    obtain ⟨a, b⟩ := q
    simp only [lookupKey, List.cons_append] at h ⊢
    by_cases ha : a = k
    · rw [if_pos ha] at h ⊢; exact h
    · rw [if_neg ha] at h ⊢; exact ih h

theorem lookupKey_append_none {β : Type} (l1 l2 : List (Str × β)) (k : Str)
    (h : lookupKey l1 k = none) : lookupKey (l1 ++ l2) k = lookupKey l2 k := by
  induction l1 with
  | nil => rfl
  | cons q rest ih =>
    obtain ⟨a, b⟩ := q
    simp only [lookupKey, List.cons_append] at h ⊢
    by_cases ha : a = k
    · rw [if_pos ha] at h; cases h
    · rw [if_neg ha] at h ⊢; exact ih h

theorem dupNOfGo_key_bounds (vals1 : List Opnd) :
    ∀ (vs : List Opnd) (j : Nat) (p : Nat × Nat), p ∈ dupNOfGo vals1 vs j →
      j ≤ p.1 ∧ p.1 < j + vs.length := by
  intro vs
  induction vs with
  | nil => intro j p hp; cases hp
  | cons v rest ih =>
    intro j p hp
    simp only [dupNOfGo] at hp
    cases hi : idxOf? vals1 v with
    | some i =>
      rw [hi] at hp
      rcases List.mem_cons.mp hp with h | h
      · subst h
        refine ⟨Nat.le_refl _, ?_⟩
        simp only [List.length_cons]
        omega
      · obtain ⟨h1, h2⟩ := ih (j+1) p h
        refine ⟨by omega, ?_⟩
        simp only [List.length_cons]
        omega
    | none =>
      rw [hi] at hp
      obtain ⟨h1, h2⟩ := ih (j+1) p hp
      refine ⟨by omega, ?_⟩
      simp only [List.length_cons]
      omega

theorem lookupNat_dupNOfGo (vals1 : List Opnd) (d : Opnd) :
    ∀ (vs : List Opnd) (j t : Nat), t < vs.length →
      lookupNat (dupNOfGo vals1 vs j) (j + t) = idxOf? vals1 (vs.getD t d) := by
  intro vs
  induction vs with
  | nil => intro j t ht; cases ht
  | cons v rest ih =>
    intro j t ht
    simp only [dupNOfGo]
    cases hi : idxOf? vals1 v with
    | some i =>
      cases t with
      | zero =>
        simp only [Nat.add_zero, List.getD_cons_zero, hi, lookupNat]
        rw [if_pos trivial]
      | succ t0 =>
        simp only [lookupNat]
        rw [if_neg (by omega)]
        rw [show j + (t0 + 1) = (j + 1) + t0 from by omega, List.getD_cons_succ]
        exact ih (j+1) t0 (by simp only [List.length_cons] at ht; omega)
    | none =>
      cases t with
      | zero =>
        rw [Nat.add_zero, List.getD_cons_zero, hi]
        exact lookupNat_eq_none_of_keys (fun p hp => by
          have := (dupNOfGo_key_bounds vals1 rest (j+1) p hp).1
          omega)
      | succ t0 =>
        rw [show j + (t0 + 1) = (j + 1) + t0 from by omega, List.getD_cons_succ]
        exact ih (j+1) t0 (by simp only [List.length_cons] at ht; omega)

theorem nonDupPositionsGo_shift (vals1 : List Opnd) :
    ∀ (vs : List Opnd) (j : Nat),
      nonDupPositionsGo vals1 vs (j+1)
        = (nonDupPositionsGo vals1 vs j).map (fun q => q + 1) := by
  intro vs
  induction vs with
  | nil => intro j; rfl
  | cons v rest ih =>
    intro j
    simp only [nonDupPositionsGo]
    cases hi : idxOf? vals1 v with
    | some i => exact ih (j+1)
    | none =>
      simp only [List.map_cons]
      rw [ih (j+1)]

theorem nonDupPositionsGo_length (vals1 : List Opnd) :
    ∀ (vs : List Opnd) (j : Nat),
      (nonDupPositionsGo vals1 vs j).length = (nonDupVals vals1 vs).length := by
  intro vs
  induction vs with
  | nil => intro j; rfl
  | cons v rest ih =>
    intro j
    simp only [nonDupPositionsGo, nonDupVals, List.filter_cons]
    cases hi : idxOf? vals1 v with
    | some i =>
      simp only [hi, Option.isNone_some, if_neg]
      rw [ih (j+1)]
      rfl
    | none =>
      simp only [hi, Option.isNone_none, if_pos, List.length_cons]
      rw [ih (j+1)]
      rfl

theorem mem_nonDupPositionsGo (vals1 : List Opnd) (d : Opnd) :
    ∀ (vs : List Opnd) (j t : Nat), t < vs.length →
      idxOf? vals1 (vs.getD t d) = none →
      j + t ∈ nonDupPositionsGo vals1 vs j := by
  intro vs
  induction vs with
  | nil => intro j t ht; cases ht
  | cons v rest ih =>
    intro j t ht hnone
    simp only [nonDupPositionsGo]
    cases t with
    | zero =>
      rw [List.getD_cons_zero] at hnone
      rw [hnone, Nat.add_zero]
      exact List.mem_cons_self _ _
    | succ t0 =>
      rw [List.getD_cons_succ] at hnone
      have ht0 : t0 < rest.length := by
        simp only [List.length_cons] at ht
        omega
      cases hi : idxOf? vals1 v with
      | some i =>
        rw [show j + (t0+1) = (j+1) + t0 from by omega]
        exact ih (j+1) t0 ht0 hnone
      | none =>
        apply List.mem_cons_of_mem
        rw [show j + (t0+1) = (j+1) + t0 from by omega]
        exact ih (j+1) t0 ht0 hnone

theorem getD_map_add_one (l : List Nat) (r : Nat) (hr : r < l.length) :
    (l.map (fun q => q + 1)).getD r 0 = l.getD r 0 + 1 := by
  rw [List.getD_eq_getElem?_getD, List.getD_eq_getElem?_getD, List.getElem?_map,
    List.getElem?_eq_getElem hr]
  rfl

theorem nonDupPositions_getD (vals1 : List Opnd) (d : Opnd) :
    ∀ (vs : List Opnd) (r : Nat), r < (nonDupPositions vals1 vs).length →
      (nonDupVals vals1 vs).getD r d
        = vs.getD ((nonDupPositions vals1 vs).getD r 0) d := by
  intro vs
  induction vs with
  | nil => intro r hr; cases hr
  | cons v rest ih =>
    intro r hr
    simp only [nonDupPositions, nonDupPositionsGo, nonDupVals, List.filter_cons] at hr ⊢
    cases hi : idxOf? vals1 v with
    | some i =>
      simp only [hi, Option.isNone_some, if_neg] at hr ⊢
      rw [nonDupPositionsGo_shift] at hr ⊢
      have hr0 : r < (nonDupPositionsGo vals1 rest 0).length := by
        rw [List.length_map] at hr
        exact hr
      rw [getD_map_add_one _ _ hr0, List.getD_cons_succ]
      exact ih r (by
        simp only [nonDupPositions]
        rw [nonDupPositionsGo_length]
        rw [nonDupPositionsGo_length] at hr0
        exact hr0)
    | none =>
      simp only [hi, Option.isNone_none, if_pos, List.length_cons] at hr ⊢
      rw [nonDupPositionsGo_shift] at hr ⊢
      cases r with
      | zero =>
        simp only [List.getD_cons_zero]
      | succ r0 =>
        simp only [List.getD_cons_succ]
        have hr0 : r0 < (nonDupPositionsGo vals1 rest 0).length := by
          simp only [List.length_cons, List.length_map] at hr
          omega
        rw [getD_map_add_one _ _ hr0, List.getD_cons_succ]
        exact ih r0 (by
          simp only [nonDupPositions]
          rw [nonDupPositionsGo_length]
          rw [nonDupPositionsGo_length] at hr0
          exact hr0)

/-- The per-id replacement the rewriter realizes: duplicated ids take the
left-table id recorded in `dupN`; fresh ids take `new_base +` their rank in
the first-occurrence list `fs`. -/
def fuseAssign (dupN : List (Nat × Nat)) (new_base : Nat) (fs : List Nat)
    (k : Nat) : Nat :=
  match lookupNat dupN k with
  | some i => i
  | none => new_base + (idxOf? fs k).getD 0

theorem freshSeen_pre (dupN : List (Nat × Nat)) :
    ∀ (ids seen : List Nat), ∃ ext, freshSeen dupN ids seen = seen ++ ext := by
  intro ids
  induction ids with
  | nil => intro seen; exact ⟨[], by simp [freshSeen]⟩
  | cons k rest ih =>
    intro seen
    simp only [freshSeen]
    cases hd : lookupNat dupN k with
    | some i => exact ih seen
    | none =>
      cases hs : idxOf? seen k with
      | some r => exact ih seen
      | none =>
        obtain ⟨ext, hext⟩ := ih (seen ++ [k])
        exact ⟨[k] ++ ext, by rw [hext, List.append_assoc]⟩

theorem mem_freshSeen_of_seen (dupN : List (Nat × Nat)) (ids seen : List Nat)
    (k : Nat) (h : k ∈ seen) : k ∈ freshSeen dupN ids seen := by
  obtain ⟨ext, hext⟩ := freshSeen_pre dupN ids seen
  rw [hext]
  exact List.mem_append_left ext h

theorem mem_freshSeen (dupN : List (Nat × Nat)) :
    ∀ (ids seen : List Nat) (k : Nat), k ∈ ids → lookupNat dupN k = none →
      k ∈ freshSeen dupN ids seen := by
  intro ids
  induction ids with
  | nil => intro seen k hk; cases hk
  | cons k0 rest ih =>
    intro seen k hk hdup
    simp only [freshSeen]
    rcases List.mem_cons.mp hk with he | hm
    · subst he
      rw [hdup]
      cases hs : idxOf? seen k with
      | some r => exact mem_freshSeen_of_seen dupN rest seen k (mem_of_idxOf?_some hs)
      | none =>
        exact mem_freshSeen_of_seen dupN rest (seen ++ [k]) k
          (List.mem_append_right seen (List.mem_cons_self k []))
    · cases hd0 : lookupNat dupN k0 with
      | some i => exact ih seen k hm hdup
      | none =>
        cases hs : idxOf? seen k0 with
        | some r => exact ih seen k hm hdup
        | none => exact ih (seen ++ [k0]) k hm hdup

theorem freshSeen_nodup (dupN : List (Nat × Nat)) :
    ∀ (ids seen : List Nat), seen.Nodup → (freshSeen dupN ids seen).Nodup := by
  intro ids
  induction ids with
  | nil => intro seen h; exact h
  | cons k rest ih =>
    intro seen h
    simp only [freshSeen]
    cases hd : lookupNat dupN k with
    | some i => exact ih seen h
    | none =>
      cases hs : idxOf? seen k with
      | some r => exact ih seen h
      | none =>
        apply ih
        rw [List.nodup_append]
        refine ⟨h, List.nodup_singleton k, ?_⟩
        intro a ha hb
        rw [List.mem_singleton] at hb
        subst hb
        exact (idxOf?_eq_none_iff seen a).mp hs ha

theorem freshSeen_src (dupN : List (Nat × Nat)) :
    ∀ (ids seen : List Nat) (k : Nat), k ∈ freshSeen dupN ids seen →
      k ∈ seen ∨ (k ∈ ids ∧ lookupNat dupN k = none) := by
  intro ids
  induction ids with
  | nil => intro seen k h; exact Or.inl h
  | cons k0 rest ih =>
    intro seen k h
    simp only [freshSeen] at h
    cases hd : lookupNat dupN k0 with
    | some i =>
      rw [hd] at h
      rcases ih seen k h with h1 | h2
      · exact Or.inl h1
      · exact Or.inr ⟨List.mem_cons_of_mem _ h2.1, h2.2⟩
    | none =>
      rw [hd] at h
      cases hs : idxOf? seen k0 with
      | some r =>
        rw [hs] at h
        rcases ih seen k h with h1 | h2
        · exact Or.inl h1
        · exact Or.inr ⟨List.mem_cons_of_mem _ h2.1, h2.2⟩
      | none =>
        rw [hs] at h
        rcases ih (seen ++ [k0]) k h with h1 | h2
        · rcases List.mem_append.mp h1 with h3 | h3
          · exact Or.inl h3
          · rw [List.mem_singleton] at h3
            subst h3
            exact Or.inr ⟨List.mem_cons_self _ _, hd⟩
        · exact Or.inr ⟨List.mem_cons_of_mem _ h2.1, h2.2⟩

theorem rebaseIds_eq_map (dupN : List (Nat × Nat)) (nb : Nat) :
    ∀ (ids seen : List Nat),
      rebaseIds dupN nb ids seen
        = ids.map (fuseAssign dupN nb (freshSeen dupN ids seen)) := by
  intro ids
  induction ids with
  | nil => intro seen; rfl
  | cons k rest ih =>
    intro seen
    simp only [rebaseIds, freshSeen, List.map_cons]
    cases hd : lookupNat dupN k with
    | some i =>
      rw [ih seen]
      congr 1
      simp only [fuseAssign, hd]
    | none =>
      cases hs : idxOf? seen k with
      | some r =>
        rw [ih seen]
        congr 1
        simp only [fuseAssign, hd]
        obtain ⟨ext, hext⟩ := freshSeen_pre dupN rest seen
        rw [hext, idxOf?_append_some seen ext k r hs]
        rfl
      | none =>
        rw [ih (seen ++ [k])]
        congr 1
        simp only [fuseAssign, hd]
        obtain ⟨ext, hext⟩ := freshSeen_pre dupN rest (seen ++ [k])
        rw [hext, List.append_assoc, List.singleton_append,
          idxOf?_append_self seen ext k ((idxOf?_eq_none_iff seen k).mp hs)]
        rfl

theorem phIds_rebaseTok (dupN : List (Nat × Nat)) (nb : Nat) :
    ∀ (items : List XItem) (ob : Nat) (pp : List (Nat × Nat)) (seen : List Nat),
      ob = seen.length →
      (∀ k, lookupNat pp k = (idxOf? seen k).map (fun r => nb + r)) →
      phIds (rebaseTok dupN nb items ob pp) = rebaseIds dupN nb (phIds items) seen := by
  intro items
  induction items with
  | nil => intro ob pp seen h1 h2; rfl
  | cons it rest ih =>
    intro ob pp seen h1 h2
    cases it with
    | ch c =>
      simp only [rebaseTok, phIds]
      exact ih ob pp seen h1 h2
    | ph k =>
      rw [rebaseTok_ph]
      simp only [phIds, rebaseIds]
      cases hd : lookupNat dupN k with
      | some i =>
        simp only [phIds]
        rw [ih ob pp seen h1 h2]
      | none =>
        rw [h2 k]
        cases hs : idxOf? seen k with
        | some r =>
          simp only [Option.map_some', phIds]
          rw [ih ob pp seen h1 h2]
        | none =>
          simp only [Option.map_none', phIds]
          have hinv : ∀ k2, lookupNat ((k, ob + nb) :: pp) k2
              = (idxOf? (seen ++ [k]) k2).map (fun r => nb + r) := by
            intro k2
            simp only [lookupNat]
            by_cases hk2 : k = k2
            · subst hk2
              rw [if_pos rfl,
                idxOf?_append_self seen [] k ((idxOf?_eq_none_iff seen k).mp hs)]
              simp only [Option.map_some']
              rw [h1, Nat.add_comm]
            · rw [if_neg hk2,
                idxOf?_append_singleton_ne seen k k2 (fun he => hk2 he.symm), h2 k2]
          rw [ih (ob + 1) ((k, ob + nb) :: pp) (seen ++ [k])
            (by rw [h1, List.length_append, List.length_cons, List.length_nil]) hinv]
          congr 1
          rw [h1, Nat.add_comm]

theorem canonFrom_length : ∀ (vs : List Opnd) (start : Nat),
    (canonFrom start vs).length = vs.length := by
  intro vs
  induction vs with
  | nil => intro s; rfl
  | cons v rest ih =>
    intro s
    simp only [canonFrom, List.length_cons]
    rw [ih (s+1)]

theorem lookupName_canonFrom (v : Opnd) :
    ∀ (vs : List Opnd) (s : Nat),
      lookupName (canonFrom s vs) v
        = (idxOf? vs v).map (fun i => 'o' :: natDigs (s + i)) := by
  intro vs
  induction vs with
  | nil => intro s; rfl
  | cons w rest ih =>
    intro s
    simp only [canonFrom, lookupName, idxOf?]
    by_cases hw : w = v
    · rw [if_pos hw, if_pos hw]
      simp only [Option.map_some', Nat.add_zero]
    · rw [if_neg hw, if_neg hw, ih (s+1)]
      cases idxOf? rest v with
      | none => rfl
      | some i =>
        simp only [Option.map_some']
        have : s + 1 + i = s + (i + 1) := by omega
        rw [this]

theorem fuseOperandsGo_canon (vals1 : List Opnd) :
    ∀ (vs : List Opnd) (j np : Nat),
      fuseOperandsGo (canonFrom 0 vals1) (canonFrom j vs) np
        = (canonFrom np (nonDupVals vals1 vs),
           (dupNOfGo vals1 vs j).map (fun p => (phName p.1, phName p.2))) := by
  intro vs
  induction vs with
  | nil => intro j np; rfl
  | cons v rest ih =>
    intro j np
    simp only [canonFrom, fuseOperandsGo, lookupName_canonFrom, dupNOfGo,
      nonDupVals, List.filter_cons]
    cases hi : idxOf? vals1 v with
    | some i =>
      simp only [Option.map_some', Option.isNone_some, if_neg, List.map_cons]
      rw [ih (j+1) np]
      simp only [phName, Nat.zero_add, Bool.false_eq_true, if_false]
      rfl
    | none =>
      simp only [Option.map_none', Option.isNone_none, if_pos]
      rw [ih (j+1) (np+1)]
      simp only [canonFrom]
      rfl

theorem fuse_operands_canon (vals1 vals2 : List Opnd) :
    fuse_operands (canonFrom 0 vals1) (canonFrom 0 vals2)
      = (canonFrom vals1.length (nonDupVals vals1 vals2),
         (dupNOf vals1 vals2).map (fun p => (phName p.1, phName p.2))) := by
  unfold fuse_operands dupNOf
  rw [canonFrom_length]
  exact fuseOperandsGo_canon vals1 vals2 0 vals1.length

theorem lookupKey_canonFrom_hit (d : Opnd) :
    ∀ (vs : List Opnd) (s t : Nat), t < vs.length →
      lookupKey (canonFrom s vs) ('o' :: natDigs (s + t)) = some (vs.getD t d) := by
  intro vs
  induction vs with
  | nil => intro s t ht; cases ht
  | cons v rest ih =>
    intro s t ht
    simp only [canonFrom, lookupKey]
    cases t with
    | zero =>
      rw [Nat.add_zero, if_pos rfl, List.getD_cons_zero]
    | succ t0 =>
      rw [if_neg (fun he => by
        have := natDigs_injective (List.cons_injective he)
        omega)]
      rw [show s + (t0 + 1) = (s + 1) + t0 from by omega, List.getD_cons_succ]
      exact ih (s+1) t0 (by simp only [List.length_cons] at ht; omega)

theorem lookupKey_canonFrom_miss :
    ∀ (vs : List Opnd) (s m : Nat), (m < s ∨ s + vs.length ≤ m) →
      lookupKey (canonFrom s vs) ('o' :: natDigs m) = none := by
  intro vs
  induction vs with
  | nil => intro s m h; rfl
  | cons v rest ih =>
    intro s m h
    simp only [List.length_cons] at h
    simp only [canonFrom, lookupKey]
    rw [if_neg (fun he => by
      have := natDigs_injective (List.cons_injective he)
      omega)]
    exact ih (s+1) m (by omega)

/-- The merged operand table built by `update_expr` in the canonical
setting: `{**left.operands, **new_operands}` (key sets are disjoint, so the
append is faithful). -/
def mergedCanon (vals1 vals2 : List Opnd) : List (Str × Opnd) :=
  canonFrom 0 vals1 ++ canonFrom vals1.length (nonDupVals vals1 vals2)

/-- The `dup_operands` table of `fuse_operands`, as placeholder names. -/
def dupMap (vals1 vals2 : List Opnd) : List (Str × Str) :=
  (dupNOf vals1 vals2).map (fun p => (phName p.1, phName p.2))

/-- The overall id replacement realized on a given placeholder stream. -/
def finalAssign (vals1 vals2 : List Opnd) (ids : List Nat) : Nat → Nat :=
  fuseAssign (dupNOf vals1 vals2) vals1.length
    (freshSeen (dupNOf vals1 vals2) ids [])

/-- **C1** (amended).  In the canonical setting — `L.operands` and
`R.operands` named `o0, o1, …` over value lists `vals1`, `vals2`, and
`R.expression` rendering a well-formed placeholder stream `items` whose ids
index `vals2` — after `fuse_operands`/`fuse_expressions`:
(1) `fuse_operands` returns the fresh entries `o<n1>, o<n1+1>, …` for the
values of `vals2` not identity-present in `vals1`, in table order, plus the
duplicate map `name2 → name1`; (2) `fuse_expressions` succeeds and rewrites
the token stream in place; (3) each old id `k` is consistently replaced by
`finalAssign k`: its left-table id when duplicated, else `n1 +` the rank of
`k`'s first occurrence in scan order; (4) every rewritten placeholder names
an entry of the merged table; (5) a duplicated placeholder takes the name
of the first identity-equal left operand; (6) fresh replacements are
`≥ n1`, so they never collide with left names, and distinct old ids get
distinct replacements; (7) the replacement denotes the same operand as the
merged table only under the extra hypothesis that scan first-occurrence
order coincides with the table order of the new operands — the original
claim asserts that agreement unconditionally, which `C1_counterexample`
refutes. -/
theorem C1_fuse_rebase (vals1 vals2 : List Opnd) (items : List XItem)
    (hwf : WFX none items)
    (hids : ∀ k ∈ phIds items, k < vals2.length) :
    fuse_operands (canonFrom 0 vals1) (canonFrom 0 vals2)
      = (canonFrom vals1.length (nonDupVals vals1 vals2), dupMap vals1 vals2)
    ∧ fuse_expressions (renderX items) vals1.length (dupMap vals1 vals2)
        = some (renderX (rebaseTok (dupNOf vals1 vals2) vals1.length items 0 []))
    ∧ phIds (rebaseTok (dupNOf vals1 vals2) vals1.length items 0 [])
        = (phIds items).map (finalAssign vals1 vals2 (phIds items))
    ∧ (∀ k ∈ phIds items,
        (lookupKey (mergedCanon vals1 vals2)
          (phName (finalAssign vals1 vals2 (phIds items) k))).isSome = true)
    ∧ (∀ k i, lookupNat (dupNOf vals1 vals2) k = some i →
        i < vals1.length ∧ k < vals2.length ∧
          idxOf? vals1 (vals2.getD k (Opnd.scalar 0)) = some i)
    ∧ (∀ k ∈ phIds items, lookupNat (dupNOf vals1 vals2) k = none →
        vals1.length ≤ finalAssign vals1 vals2 (phIds items) k
        ∧ ∀ k2 ∈ phIds items, lookupNat (dupNOf vals1 vals2) k2 = none →
            finalAssign vals1 vals2 (phIds items) k
              = finalAssign vals1 vals2 (phIds items) k2 → k = k2)
    ∧ (freshSeen (dupNOf vals1 vals2) (phIds items) [] = nonDupPositions vals1 vals2 →
        ∀ k ∈ phIds items,
          lookupKey (mergedCanon vals1 vals2)
            (phName (finalAssign vals1 vals2 (phIds items) k))
            = some (vals2.getD k (Opnd.scalar 0))) := by
  have hdupchar : ∀ k, k < vals2.length →
      lookupNat (dupNOf vals1 vals2) k
        = idxOf? vals1 (vals2.getD k (Opnd.scalar 0)) := by
    intro k hk
    have h := lookupNat_dupNOfGo vals1 (Opnd.scalar 0) vals2 0 k hk
    rw [Nat.zero_add] at h
    exact h
  have hP5 : ∀ k i, lookupNat (dupNOf vals1 vals2) k = some i →
      i < vals1.length ∧ k < vals2.length ∧
        idxOf? vals1 (vals2.getD k (Opnd.scalar 0)) = some i := by
    intro k i h
    have hmem := lookupNat_some_mem h
    have hb := dupNOfGo_key_bounds vals1 vals2 0 (k, i) hmem
    have hk2 : k < vals2.length := by
      have := hb.2
      omega
    have hidx : idxOf? vals1 (vals2.getD k (Opnd.scalar 0)) = some i := by
      rw [← hdupchar k hk2]
      exact h
    obtain ⟨hi1, _⟩ := idxOf?_spec vals1 (vals2.getD k (Opnd.scalar 0))
      (Opnd.scalar 0) i hidx
    exact ⟨hi1, hk2, hidx⟩
  have hposlen : (nonDupPositions vals1 vals2).length
      = (nonDupVals vals1 vals2).length := nonDupPositionsGo_length vals1 vals2 0
  have hFsub : ∀ x ∈ freshSeen (dupNOf vals1 vals2) (phIds items) [],
      x ∈ nonDupPositions vals1 vals2 := by
    intro x hx
    rcases freshSeen_src _ _ _ _ hx with h0 | ⟨hxi, hxd⟩
    · cases h0
    · have hxlt := hids x hxi
      have hnone : idxOf? vals1 (vals2.getD x (Opnd.scalar 0)) = none := by
        rw [← hdupchar x hxlt]
        exact hxd
      have h := mem_nonDupPositionsGo vals1 (Opnd.scalar 0) vals2 0 x hxlt hnone
      rw [Nat.zero_add] at h
      exact h
  have hFnodup := freshSeen_nodup (dupNOf vals1 vals2) (phIds items) [] List.nodup_nil
  have hFlen : (freshSeen (dupNOf vals1 vals2) (phIds items) []).length
      ≤ (nonDupVals vals1 vals2).length := by
    have hsub := List.subperm_of_subset hFnodup hFsub
    have hle := hsub.length_le
    omega
  have hfresh : ∀ k ∈ phIds items, lookupNat (dupNOf vals1 vals2) k = none →
      ∃ r, idxOf? (freshSeen (dupNOf vals1 vals2) (phIds items) []) k = some r
        ∧ finalAssign vals1 vals2 (phIds items) k = vals1.length + r
        ∧ r < (nonDupVals vals1 vals2).length := by
    intro k hk hd
    obtain ⟨r, hr⟩ := idxOf?_some_of_mem (mem_freshSeen _ _ [] k hk hd)
    refine ⟨r, hr, ?_, ?_⟩
    · simp only [finalAssign, fuseAssign, hd, hr, Option.getD_some]
    · have h1 := (idxOf?_spec _ k 0 r hr).1
      omega
  refine ⟨?_, ?_, ?_, ?_, hP5, ?_, ?_⟩
  · exact fuse_operands_canon vals1 vals2
  · have h := fuseExprGo_render vals1.length (dupNOf vals1 vals2) items none hwf []
      (Or.inl ⟨rfl, rfl⟩) 0 (Nat.le_refl _) 0 [] []
    simpa [fuse_expressions, dupMap] using h
  · rw [phIds_rebaseTok (dupNOf vals1 vals2) vals1.length items 0 [] []
      rfl (fun k => rfl)]
    rw [rebaseIds_eq_map]
    rfl
  · intro k hk
    cases hd : lookupNat (dupNOf vals1 vals2) k with
    | some i =>
      obtain ⟨hi1, hk2, hidx⟩ := hP5 k i hd
      have hA : finalAssign vals1 vals2 (phIds items) k = i := by
        simp only [finalAssign, fuseAssign, hd]
      rw [hA]
      have hhit := lookupKey_canonFrom_hit (Opnd.scalar 0) vals1 0 i hi1
      rw [Nat.zero_add] at hhit
      simp only [mergedCanon, phName]
      rw [lookupKey_append_some _ _ _ _ hhit]
      rfl
    | none =>
      obtain ⟨r, hr, hA, hrlt⟩ := hfresh k hk hd
      rw [hA]
      simp only [mergedCanon, phName]
      rw [lookupKey_append_none _ _ _
        (lookupKey_canonFrom_miss vals1 0 (vals1.length + r) (Or.inr (by omega)))]
      rw [lookupKey_canonFrom_hit (Opnd.scalar 0) (nonDupVals vals1 vals2)
        vals1.length r hrlt]
      rfl
  · intro k hk hd
    obtain ⟨r, hr, hA, _⟩ := hfresh k hk hd
    constructor
    · rw [hA]
      exact Nat.le_add_right _ _
    · intro k2 hk2m hd2 heq
      obtain ⟨r2, hr2, hA2, _⟩ := hfresh k2 hk2m hd2
      rw [hA, hA2] at heq
      have hrr : r = r2 := by omega
      subst hrr
      have e1 := (idxOf?_spec _ k 0 r hr).2
      have e2 := (idxOf?_spec _ k2 0 r hr2).2
      rw [← e1, ← e2]
  · intro horder k hk
    cases hd : lookupNat (dupNOf vals1 vals2) k with
    | some i =>
      obtain ⟨hi1, hk2, hidx⟩ := hP5 k i hd
      have hA : finalAssign vals1 vals2 (phIds items) k = i := by
        simp only [finalAssign, fuseAssign, hd]
      rw [hA]
      have hhit := lookupKey_canonFrom_hit (Opnd.scalar 0) vals1 0 i hi1
      rw [Nat.zero_add] at hhit
      have hval := (idxOf?_spec vals1 (vals2.getD k (Opnd.scalar 0))
        (Opnd.scalar 0) i hidx).2
      simp only [mergedCanon, phName]
      rw [lookupKey_append_some _ _ _ _ hhit, hval]
    | none =>
      obtain ⟨r, hr, hA, hrlt⟩ := hfresh k hk hd
      rw [hA]
      simp only [mergedCanon, phName]
      rw [lookupKey_append_none _ _ _
        (lookupKey_canonFrom_miss vals1 0 (vals1.length + r) (Or.inr (by omega)))]
      rw [lookupKey_canonFrom_hit (Opnd.scalar 0) (nonDupVals vals1 vals2)
        vals1.length r hrlt]
      have hcorr := nonDupPositions_getD vals1 (Opnd.scalar 0) vals2 r
        (by rw [hposlen]; exact hrlt)
      rw [hcorr]
      have hkr : (nonDupPositions vals1 vals2).getD r 0 = k := by
        have h2 := (idxOf?_spec _ k 0 r hr).2
        rw [horder] at h2
        exact h2
      rw [hkr]

/-- Left operand values: one array object. -/
def cVals1 : List Opnd := [Opnd.arr 100 [2] 0]

/-- Right operand values: three distinct array objects, none identical to
the left one. -/
def cVals2 : List Opnd :=
  [Opnd.arr 11 [2] 0, Opnd.arr 12 [2] 0, Opnd.arr 13 [2] 0]

/-- The token stream of the right expression `"(o2 + (o0 + o1))"`, as built
by the reflected addition `D + (B + C)`. -/
def cItems : List XItem :=
  [.ch '(', .ph 2, .ch ' ', .ch '+', .ch ' ', .ch '(', .ph 0, .ch ' ',
   .ch '+', .ch ' ', .ph 1, .ch ')', .ch ')']

/-- The rewritten token stream `"(o1 + (o2 + o3))"`. -/
def cOutItems : List XItem :=
  [.ch '(', .ph 1, .ch ' ', .ch '+', .ch ' ', .ch '(', .ph 2, .ch ' ',
   .ch '+', .ch ' ', .ph 3, .ch ')', .ch ')']

theorem cItems_wf : WFX none cItems := by
  unfold cItems
  refine WFX.ch _ _ _ (by decide) ?_
  refine WFX.ph _ _ _ _ (by decide) (by decide) ?_
  refine WFX.ch _ _ _ (by decide) ?_
  refine WFX.ch _ _ _ (by decide) ?_
  refine WFX.ch _ _ _ (by decide) ?_
  refine WFX.ch _ _ _ (by decide) ?_
  refine WFX.ph _ _ _ _ (by decide) (by decide) ?_
  refine WFX.ch _ _ _ (by decide) ?_
  refine WFX.ch _ _ _ (by decide) ?_
  refine WFX.ch _ _ _ (by decide) ?_
  refine WFX.ph _ _ _ _ (by decide) (by decide) ?_
  refine WFX.ch _ _ _ (by decide) ?_
  refine WFX.ch _ _ _ (by decide) ?_
  exact WFX.nil _

/-- Witness for `C1_fuse_rebase` at the concrete fusion instance. -/
theorem C1_witness :
    fuse_operands (canonFrom 0 cVals1) (canonFrom 0 cVals2)
      = (canonFrom cVals1.length (nonDupVals cVals1 cVals2), dupMap cVals1 cVals2)
    ∧ fuse_expressions (renderX cItems) cVals1.length (dupMap cVals1 cVals2)
        = some (renderX (rebaseTok (dupNOf cVals1 cVals2) cVals1.length cItems 0 []))
    ∧ phIds (rebaseTok (dupNOf cVals1 cVals2) cVals1.length cItems 0 [])
        = (phIds cItems).map (finalAssign cVals1 cVals2 (phIds cItems))
    ∧ (∀ k ∈ phIds cItems,
        (lookupKey (mergedCanon cVals1 cVals2)
          (phName (finalAssign cVals1 cVals2 (phIds cItems) k))).isSome = true)
    ∧ (∀ k i, lookupNat (dupNOf cVals1 cVals2) k = some i →
        i < cVals1.length ∧ k < cVals2.length ∧
          idxOf? cVals1 (cVals2.getD k (Opnd.scalar 0)) = some i)
    ∧ (∀ k ∈ phIds cItems, lookupNat (dupNOf cVals1 cVals2) k = none →
        cVals1.length ≤ finalAssign cVals1 cVals2 (phIds cItems) k
        ∧ ∀ k2 ∈ phIds cItems, lookupNat (dupNOf cVals1 cVals2) k2 = none →
            finalAssign cVals1 cVals2 (phIds cItems) k
              = finalAssign cVals1 cVals2 (phIds cItems) k2 → k = k2)
    ∧ (freshSeen (dupNOf cVals1 cVals2) (phIds cItems) []
          = nonDupPositions cVals1 cVals2 →
        ∀ k ∈ phIds cItems,
          lookupKey (mergedCanon cVals1 cVals2)
            (phName (finalAssign cVals1 cVals2 (phIds cItems) k))
            = some (cVals2.getD k (Opnd.scalar 0))) :=
  C1_fuse_rebase cVals1 cVals2 cItems cItems_wf (by decide)

/-- C1 counterexample.  With `L.operands = {o0: A}` and
`R.operands = {o0: B, o1: C, o2: D}`, `R.expression = "(o2 + (o0 + o1))"`,
the scanner meets the placeholder `o2` first and replaces it by the first
fresh name `o1`, while `fuse_operands` assigns the merged-table name `o1`
to `B`, the first new entry in table order: the fused expression reads `B`
where `R` meant `D`, refuting the claim's unconditional agreement between
the rewriter's replacement and the merged table. -/
theorem C1_counterexample :
    fuse_operands (canonFrom 0 cVals1) (canonFrom 0 cVals2)
        = (canonFrom 1 cVals2, [])
    ∧ fuse_expressions (renderX cItems) 1 [] = some (renderX cOutItems)
    ∧ phIds cItems = [2, 0, 1]
    ∧ phIds cOutItems = [1, 2, 3]
    ∧ lookupKey (mergedCanon cVals1 cVals2) (phName 1)
        = some (Opnd.arr 11 [2] 0)
    ∧ cVals2.getD 2 (Opnd.scalar 0) = Opnd.arr 13 [2] 0
    ∧ Opnd.arr 11 [2] 0 ≠ Opnd.arr 13 [2] 0 :=
  ⟨by decide, by decide, by decide, by decide, by decide, by decide, by decide⟩

/-! ### The chunked evaluators `chunks_eval` and `slices_eval` (C3)

Both drivers walk a row-major grid of chunks over the output shape and
evaluate the expression on each chunk's slice of every operand.  Arrays
are modelled by a total content function `List Nat → Int` over the shared
shape; `ne.evaluate(expression, chunk_operands)` is modelled by a
pointwise kernel `f` applied to the operand values in table order, exact
for the elementwise expressions `numexpr` accepts.  On the fast path all
operands share the base array's chunks, so `fill_chunk_operands`' whole
chunk decompression yields the same buffer as the generic `value[slice_]`,
and `check_smaller_shape` is false for every operand: both operand paths
are the slice view.  `chunks_eval` writes a full chunk through
`schunk.update_data` when there is no padding and through
`out[slice_] = result` otherwise — both write exactly the region
`slice_`.  The output created on the first chunk fixes only the dtype
(untracked here); the initial contents of `blosc2.empty` are arbitrary,
hence the `init` parameter.  `slices_eval` is taken with `_slice=None`,
no `_getitem` and no given output; its grid comes from the fake
`blosc2.empty(shape, chunks)` operand, whose chunking need not match the
operands'. -/

/-- `ext_shape // chunks` per dimension: `ceil(shape / chunks)`. -/
def ceilDiv (a b : Nat) : Nat := (a + b - 1) / b

def chunksIdx (shape chunks : List Nat) : List Nat :=
  List.zipWith ceilDiv shape chunks

def prodL : List Nat → Nat
  | [] => 1
  | d :: rest => d * prodL rest

/-- `np.unravel_index(nchunk, chunks_idx)` (C order). -/
def unravelIdx : List Nat → Nat → List Nat
  | [], _ => []
  | _ :: rest, n => n / prodL rest :: unravelIdx rest (n % prodL rest)

/-- The row-major linear index of `coords` (the inverse of `unravelIdx`,
used to name the chunk owning a given position). -/
def ravelIdx : List Nat → List Nat → Nat
  | [], _ => 0
  | _ :: _, [] => 0
  | _ :: rest, c :: cs => c * prodL rest + ravelIdx rest cs

/-- `slice(c * s, min((c + 1) * s, shape[i]))`, per dimension. -/
def chunkSlice (coords chunks shape : List Nat) : List (Nat × Nat) :=
  List.zipWith (fun p sh => (p.1 * p.2, min ((p.1 + 1) * p.2) sh))
    (List.zip coords chunks) shape

def inSliceB : List (Nat × Nat) → List Nat → Bool
  | [], [] => true
  | q :: sl, i :: idx => q.1 ≤ i && i < q.2 && inSliceB sl idx
  | _, _ => false

def validIdx : List Nat → List Nat → Bool
  | [], [] => true
  | sh :: shr, i :: ir => i < sh && validIdx shr ir
  | _, _ => false

/-- `value[slice_]`: the local chunk buffer of an operand. -/
def sliceView (v : List Nat → Int) (sl : List (Nat × Nat)) : List Nat → Int :=
  fun j => v (List.zipWith (fun p i => p.1 + i) sl j)

/-- `ne.evaluate(expression, chunk_operands)`: the pointwise kernel on the
local buffers, in table order. -/
def neEval (f : List Int → Int) (chunk_operands : List (Str × (List Nat → Int))) :
    List Nat → Int :=
  fun j => f (chunk_operands.map (fun p => p.2 j))

/-- `out[slice_] = result` on the global content function. -/
def writeSlice (o : List Nat → Int) (sl : List (Nat × Nat))
    (res : List Nat → Int) : List Nat → Int :=
  fun idx =>
    if inSliceB sl idx then res (List.zipWith (fun i p => i - p.1) idx sl)
    else o idx

/-- One iteration of either driver loop on chunk `nchunk`: compute
`slice_`, build `chunk_operands`, evaluate the kernel, write the region. -/
def evalStep (shape chunks : List Nat) (f : List Int → Int)
    (ops : List (Str × (List Nat → Int))) (nchunk : Nat)
    (out : List Nat → Int) : List Nat → Int :=
  writeSlice out
    (chunkSlice (unravelIdx (chunksIdx shape chunks) nchunk) chunks shape)
    (neEval f (ops.map (fun p =>
      (p.1, sliceView p.2
        (chunkSlice (unravelIdx (chunksIdx shape chunks) nchunk) chunks shape)))))

/-- The `for nchunk in range(n)` loop of `chunks_eval` (string expression;
`shape`/`chunks` are the base array's, shared by all operands on the fast
path). -/
def chunks_eval (shape chunks : List Nat) (f : List Int → Int)
    (ops : List (Str × (List Nat → Int))) :
    Nat → (List Nat → Int) → (List Nat → Int)
  | 0, out => out
  | n+1, out => evalStep shape chunks f ops n (chunks_eval shape chunks f ops n out)

/-- The loop of `slices_eval` (string expression, `_slice=None`,
`_getitem=False`, no `_output`): the grid parameters come from the fake
operand, each chunk is sliced from every operand, the kernel result is
written through `out[slice_] = result`. -/
def slices_eval (shape chunks2 : List Nat) (f : List Int → Int)
    (ops : List (Str × (List Nat → Int))) :
    Nat → (List Nat → Int) → (List Nat → Int)
  | 0, out => out
  | n+1, out => evalStep shape chunks2 f ops n (slices_eval shape chunks2 f ops n out)

theorem prodL_pos (dims : List Nat) (h : ∀ d ∈ dims, 0 < d) : 0 < prodL dims := by
  induction dims with
  | nil => exact Nat.one_pos
  | cons d rest ih =>
    simp only [prodL]
    exact Nat.mul_pos (h d (List.mem_cons_self _ _))
      (ih (fun x hx => h x (List.mem_cons_of_mem _ hx)))

theorem unravelIdx_length (dims : List Nat) :
    ∀ n, (unravelIdx dims n).length = dims.length := by
  induction dims with
  | nil => intro n; rfl
  | cons d rest ih =>
    intro n
    simp only [unravelIdx, List.length_cons, ih]

theorem ravel_lt_and_unravel (dims : List Nat) :
    ∀ coords, coords.length = dims.length →
      (∀ p ∈ List.zip coords dims, p.1 < p.2) →
      ravelIdx dims coords < prodL dims
      ∧ unravelIdx dims (ravelIdx dims coords) = coords := by
  induction dims with
  | nil =>
    intro coords hlen hb
    rw [List.length_nil, List.length_eq_zero] at hlen
    subst hlen
    exact ⟨Nat.one_pos, rfl⟩
  | cons d rest ih =>
    intro coords hlen hb
    cases coords with
    | nil => simp at hlen
    | cons c cs =>
      simp only [List.length_cons] at hlen
      have hcd : c < d := hb (c, d) (by
        rw [List.zip_cons_cons]
        exact List.mem_cons_self _ _)
      obtain ⟨ihlt, ihun⟩ := ih cs (by omega) (fun p hp => hb p (by
        rw [List.zip_cons_cons]
        exact List.mem_cons_of_mem _ hp))
      constructor
      · simp only [ravelIdx, prodL]
        have hsucc : (c + 1) * prodL rest ≤ d * prodL rest :=
          Nat.mul_le_mul_right _ (by omega)
        have hstep : (c + 1) * prodL rest = c * prodL rest + prodL rest :=
          Nat.succ_mul c (prodL rest)
        omega
      · have hP : 0 < prodL rest := Nat.lt_of_le_of_lt (Nat.zero_le _) ihlt
        simp only [ravelIdx, unravelIdx]
        have hdiv : (c * prodL rest + ravelIdx rest cs) / prodL rest = c := by
          rw [Nat.add_comm, Nat.add_mul_div_right _ _ hP, Nat.div_eq_of_lt ihlt,
            Nat.zero_add]
        have hmod : (c * prodL rest + ravelIdx rest cs) % prodL rest
            = ravelIdx rest cs := by
          rw [Nat.add_comm, Nat.add_mul_mod_self_right, Nat.mod_eq_of_lt ihlt]
        rw [hdiv, hmod, ihun]

theorem ravel_unravel (dims : List Nat) :
    ∀ n, (∀ d ∈ dims, 0 < d) → n < prodL dims →
      ravelIdx dims (unravelIdx dims n) = n := by
  induction dims with
  | nil =>
    intro n h hn
    simp only [prodL] at hn
    have h0 : n = 0 := by omega
    subst h0
    rfl
  | cons d rest ih =>
    intro n h hn
    have hP : 0 < prodL rest :=
      prodL_pos rest (fun x hx => h x (List.mem_cons_of_mem _ hx))
    simp only [unravelIdx, ravelIdx]
    rw [ih (n % prodL rest) (fun x hx => h x (List.mem_cons_of_mem _ hx))
      (Nat.mod_lt _ hP)]
    exact Nat.div_add_mod' n (prodL rest)

theorem div_lt_ceilDiv (i sh c : Nat) (hi : i < sh) (hc : 0 < c) :
    i / c < ceilDiv sh c := by
  rw [Nat.div_lt_iff_lt_mul hc]
  have h1 := Nat.div_add_mod (sh + c - 1) c
  have h2 := Nat.mod_lt (sh + c - 1) hc
  have h3 : ceilDiv sh c * c = c * ((sh + c - 1) / c) := by
    rw [Nat.mul_comm]
    rfl
  omega

theorem inChunkDim (c s i sh : Nat) (hs : 0 < s) (hi : i < sh) :
    (c * s ≤ i ∧ i < min ((c + 1) * s) sh) ↔ c = i / s := by
  constructor
  · intro ⟨h1, h2⟩
    have h3 : i < (c + 1) * s := Nat.lt_of_lt_of_le h2 (Nat.min_le_left _ _)
    have h4 : c ≤ i / s := (Nat.le_div_iff_mul_le hs).mpr h1
    have h5 : i / s < c + 1 := by
      rw [Nat.div_lt_iff_lt_mul hs]
      exact h3
    omega
  · intro h
    subst h
    refine ⟨Nat.div_mul_le_self i s, Nat.lt_min.mpr ⟨?_, hi⟩⟩
    have := Nat.lt_div_mul_add (a := i) hs
    have hstep : (i / s + 1) * s = i / s * s + s := Nat.succ_mul _ _
    omega


theorem inSliceB_iff (shape : List Nat) :
    ∀ (chunks coords idx : List Nat),
      chunks.length = shape.length →
      coords.length = shape.length →
      (∀ c ∈ chunks, 0 < c) →
      validIdx shape idx = true →
      (inSliceB (chunkSlice coords chunks shape) idx = true
        ↔ coords = List.zipWith (fun i c => i / c) idx chunks) := by
  induction shape with
  | nil =>
    intro chunks coords idx h1 h2 hpos hval
    rw [List.length_nil, List.length_eq_zero] at h1 h2
    subst h1
    subst h2
    cases idx with
    | nil => simp [inSliceB, chunkSlice]
    | cons i ir => simp [validIdx] at hval
  | cons sh shr ih =>
    intro chunks coords idx h1 h2 hpos hval
    cases chunks with
    | nil => simp at h1
    | cons s chr =>
      cases coords with
      | nil => simp at h2
      | cons c cr =>
        cases idx with
        | nil => simp [validIdx] at hval
        | cons i ir =>
          simp only [List.length_cons] at h1 h2
          simp only [validIdx, Bool.and_eq_true, decide_eq_true_eq] at hval
          obtain ⟨hi, hvalr⟩ := hval
          have hs : 0 < s := hpos s (List.mem_cons_self _ _)
          have ihr := ih chr cr ir (by omega) (by omega)
            (fun x hx => hpos x (List.mem_cons_of_mem _ hx)) hvalr
          simp only [chunkSlice, List.zip_cons_cons, List.zipWith_cons_cons] at ihr ⊢
          simp only [inSliceB, Bool.and_eq_true, decide_eq_true_eq] at ihr ⊢
          rw [List.cons_eq_cons]
          constructor
          · intro hB
            obtain ⟨⟨hd1, hd2⟩, hrest⟩ := hB
            exact ⟨(inChunkDim c s i sh hs hi).mp ⟨hd1, hd2⟩, ihr.mp hrest⟩
          · intro hE
            obtain ⟨he1, he2⟩ := hE
            refine ⟨⟨?_, ?_⟩, ihr.mpr he2⟩
            · exact ((inChunkDim c s i sh hs hi).mpr he1).1
            · exact ((inChunkDim c s i sh hs hi).mpr he1).2

theorem offset_roundtrip : ∀ (sl : List (Nat × Nat)) (idx : List Nat),
    inSliceB sl idx = true →
    List.zipWith (fun p i => p.1 + i) sl
      (List.zipWith (fun i p => i - p.1) idx sl) = idx := by
  intro sl
  induction sl with
  | nil =>
    intro idx h
    cases idx with
    | nil => rfl
    | cons i ir => simp [inSliceB] at h
  | cons q rest ih =>
    intro idx h
    cases idx with
    | nil => simp [inSliceB] at h
    | cons i ir =>
      simp only [inSliceB, Bool.and_eq_true, decide_eq_true_eq] at h
      obtain ⟨⟨h1, h2⟩, hrest⟩ := h
      simp only [List.zipWith_cons_cons]
      rw [ih ir hrest]
      congr 1
      omega

theorem coords_bound (shape : List Nat) : ∀ (chunks idx : List Nat),
    chunks.length = shape.length →
    (∀ c ∈ chunks, 0 < c) →
    validIdx shape idx = true →
    ∀ p ∈ List.zip (List.zipWith (fun i c => i / c) idx chunks)
        (chunksIdx shape chunks), p.1 < p.2 := by
  induction shape with
  | nil =>
    intro chunks idx h1 _ hval p hp
    rw [List.length_nil, List.length_eq_zero] at h1
    subst h1
    simp [chunksIdx] at hp
  | cons sh shr ih =>
    intro chunks idx h1 hpos hval p hp
    cases chunks with
    | nil => simp at h1
    | cons s chr =>
      cases idx with
      | nil => simp [validIdx] at hval
      | cons i ir =>
        simp only [List.length_cons] at h1
        simp only [validIdx, Bool.and_eq_true, decide_eq_true_eq] at hval
        obtain ⟨hi, hvalr⟩ := hval
        have hs : 0 < s := hpos s (List.mem_cons_self _ _)
        simp only [chunksIdx, List.zipWith_cons_cons, List.zip_cons_cons] at hp
        rcases List.mem_cons.mp hp with he | hm
        · subst he
          exact div_lt_ceilDiv i sh s hi hs
        · exact ih chr ir (by omega)
            (fun x hx => hpos x (List.mem_cons_of_mem _ hx)) hvalr p hm

theorem dims_pos (shape : List Nat) : ∀ (chunks idx : List Nat),
    chunks.length = shape.length →
    (∀ c ∈ chunks, 0 < c) →
    validIdx shape idx = true →
    ∀ d ∈ chunksIdx shape chunks, 0 < d := by
  induction shape with
  | nil =>
    intro chunks idx h1 _ _ d hd
    rw [List.length_nil, List.length_eq_zero] at h1
    subst h1
    simp [chunksIdx] at hd
  | cons sh shr ih =>
    intro chunks idx h1 hpos hval d hd
    cases chunks with
    | nil => simp at h1
    | cons s chr =>
      cases idx with
      | nil => simp [validIdx] at hval
      | cons i ir =>
        simp only [List.length_cons] at h1
        simp only [validIdx, Bool.and_eq_true, decide_eq_true_eq] at hval
        obtain ⟨hi, hvalr⟩ := hval
        have hs : 0 < s := hpos s (List.mem_cons_self _ _)
        simp only [chunksIdx, List.zipWith_cons_cons] at hd
        rcases List.mem_cons.mp hd with he | hm
        · subst he
          exact Nat.div_pos (by omega) hs
        · exact ih chr ir (by omega)
            (fun x hx => hpos x (List.mem_cons_of_mem _ hx)) hvalr d hm

theorem validIdx_length (shape : List Nat) : ∀ idx,
    validIdx shape idx = true → idx.length = shape.length := by
  induction shape with
  | nil =>
    intro idx h
    cases idx with
    | nil => rfl
    | cons i ir => simp [validIdx] at h
  | cons sh shr ih =>
    intro idx h
    cases idx with
    | nil => simp [validIdx] at h
    | cons i ir =>
      simp only [validIdx, Bool.and_eq_true] at h
      simp only [List.length_cons]
      rw [ih ir h.2]

/-- Pointwise soundness of the chunked driver loop: after the full pass
over the chunk grid, every valid position holds the kernel value at that
position, regardless of the initial contents. -/
theorem chunks_eval_point (shape chunks : List Nat) (f : List Int → Int)
    (ops : List (Str × (List Nat → Int)))
    (hlen : chunks.length = shape.length) (hpos : ∀ c ∈ chunks, 0 < c)
    (idx : List Nat) (hidx : validIdx shape idx = true)
    (out : List Nat → Int) :
    chunks_eval shape chunks f ops (prodL (chunksIdx shape chunks)) out idx
      = f (ops.map (fun p => p.2 idx)) := by
  have hilen := validIdx_length shape idx hidx
  have hdlen : (chunksIdx shape chunks).length = shape.length := by
    simp only [chunksIdx, List.length_zipWith]
    omega
  have hclen : (List.zipWith (fun i c => i / c) idx chunks).length
      = (chunksIdx shape chunks).length := by
    simp only [List.length_zipWith]
    omega
  have hcb := coords_bound shape chunks idx hlen hpos hidx
  have hdp := dims_pos shape chunks idx hlen hpos hidx
  obtain ⟨hmlt, hmu⟩ := ravel_lt_and_unravel (chunksIdx shape chunks)
    (List.zipWith (fun i c => i / c) idx chunks) hclen hcb
  suffices hInv : ∀ n, n ≤ prodL (chunksIdx shape chunks) → ∀ o,
      chunks_eval shape chunks f ops n o idx
        = if ravelIdx (chunksIdx shape chunks)
              (List.zipWith (fun i c => i / c) idx chunks) < n
          then f (ops.map (fun p => p.2 idx))
          else o idx by
    rw [hInv (prodL (chunksIdx shape chunks)) (Nat.le_refl _) out, if_pos hmlt]
  intro n
  induction n with
  | zero =>
    intro hn o
    rw [if_neg (by omega)]
    rfl
  | succ n ihn =>
    intro hn o
    have hnN : n < prodL (chunksIdx shape chunks) := by omega
    simp only [chunks_eval]
    by_cases hcase : unravelIdx (chunksIdx shape chunks) n
        = List.zipWith (fun i c => i / c) idx chunks
    · have hnm : n = ravelIdx (chunksIdx shape chunks)
          (List.zipWith (fun i c => i / c) idx chunks) := by
        rw [← hcase, ravel_unravel _ n hdp hnN]
      have hmemb : inSliceB (chunkSlice (unravelIdx (chunksIdx shape chunks) n)
          chunks shape) idx = true := by
        rw [inSliceB_iff shape chunks _ idx hlen
          (by rw [unravelIdx_length, hdlen]) hpos hidx]
        exact hcase
      simp only [evalStep, writeSlice]
      rw [if_pos hmemb, if_pos (by omega)]
      have hrt := offset_roundtrip _ idx hmemb
      simp only [neEval, List.map_map]
      congr 1
      apply List.map_congr_left
      intro a ha
      simp only [Function.comp_apply, sliceView]
      rw [hrt]
    · have hmemb : inSliceB (chunkSlice (unravelIdx (chunksIdx shape chunks) n)
          chunks shape) idx = false := by
        cases hB : inSliceB (chunkSlice (unravelIdx (chunksIdx shape chunks) n)
            chunks shape) idx with
        | false => rfl
        | true =>
          exact absurd ((inSliceB_iff shape chunks _ idx hlen
            (by rw [unravelIdx_length, hdlen]) hpos hidx).mp hB) hcase
      simp only [evalStep, writeSlice]
      rw [if_neg (by rw [hmemb]; exact Bool.false_ne_true)]
      rw [ihn (by omega) o]
      have hmn : ravelIdx (chunksIdx shape chunks)
          (List.zipWith (fun i c => i / c) idx chunks) ≠ n := by
        intro he
        apply hcase
        rw [← he, hmu]
      by_cases hlt : ravelIdx (chunksIdx shape chunks)
          (List.zipWith (fun i c => i / c) idx chunks) < n
      · rw [if_pos hlt, if_pos (by omega)]
      · rw [if_neg hlt, if_neg (by omega)]

theorem slices_eval_eq_chunks_eval (shape chunks : List Nat) (f : List Int → Int)
    (ops : List (Str × (List Nat → Int))) :
    ∀ n out, slices_eval shape chunks f ops n out
      = chunks_eval shape chunks f ops n out := by
  intro n
  induction n with
  | zero => intro out; rfl
  | succ n ih =>
    intro out
    simp only [slices_eval, chunks_eval, ih]

/-- **C3** (confirmed).  Under the fast-path precondition — a common shape,
with `chunks_eval` iterating the shared base chunking and `slices_eval`
iterating the grid of its fake operand — every element of the
`chunks_eval` output equals the corresponding element of the `slices_eval`
output on the same expression and operands: both drivers fill every valid
position with the kernel value there, independent of the (arbitrary)
initial buffer contents and of the two chunk grids.  The dtype selected at
the first evaluated chunk is not tracked. -/
theorem C3_chunks_eval_refines (shape chunks1 chunks2 : List Nat)
    (f : List Int → Int) (ops : List (Str × (List Nat → Int)))
    (init1 init2 : List Nat → Int)
    (hlen1 : chunks1.length = shape.length) (hpos1 : ∀ c ∈ chunks1, 0 < c)
    (hlen2 : chunks2.length = shape.length) (hpos2 : ∀ c ∈ chunks2, 0 < c)
    (idx : List Nat) (hidx : validIdx shape idx = true) :
    chunks_eval shape chunks1 f ops (prodL (chunksIdx shape chunks1)) init1 idx
      = slices_eval shape chunks2 f ops (prodL (chunksIdx shape chunks2)) init2 idx
    ∧ chunks_eval shape chunks1 f ops (prodL (chunksIdx shape chunks1)) init1 idx
      = f (ops.map (fun p => p.2 idx)) := by
  have h1 := chunks_eval_point shape chunks1 f ops hlen1 hpos1 idx hidx init1
  have h2 := chunks_eval_point shape chunks2 f ops hlen2 hpos2 idx hidx init2
  rw [slices_eval_eq_chunks_eval]
  rw [h1, h2]
  exact ⟨rfl, rfl⟩

/-- Witness for `C3_chunks_eval_refines`: shape `[3]`, operand chunks
`[2]`, fake-operand chunks `[3]`, a sum kernel over one operand. -/
theorem C3_witness :
    chunks_eval [3] [2] (fun l => l.foldl (fun a b => a + b) 0)
        [(phName 0, fun j => (j.getD 0 0 : Int))]
        (prodL (chunksIdx [3] [2])) (fun j => 0) [1]
      = slices_eval [3] [3] (fun l => l.foldl (fun a b => a + b) 0)
          [(phName 0, fun j => (j.getD 0 0 : Int))]
          (prodL (chunksIdx [3] [3])) (fun j => 0) [1]
    ∧ chunks_eval [3] [2] (fun l => l.foldl (fun a b => a + b) 0)
        [(phName 0, fun j => (j.getD 0 0 : Int))]
        (prodL (chunksIdx [3] [2])) (fun j => 0) [1]
      = (fun l => l.foldl (fun a b => a + b) 0)
          ([(phName 0, fun j => (j.getD 0 0 : Int))].map (fun p => p.2 [1])) :=
  C3_chunks_eval_refines [3] [2] [3] (fun l => l.foldl (fun a b => a + b) 0)
    [(phName 0, fun j => (j.getD 0 0 : Int))] (fun j => 0) (fun j => 0)
    rfl (by decide) rfl (by decide) [1] (by decide)

/-! ### The reduction driver `reduce_slices` (C4)

Modelled for a string expression, `_slice=None`, no given output, and the
default `axis=None`, which the code normalizes to all dimensions
(`keepdims=False`): each chunk's partial reduction is then a scalar and
the output holds a single slot (`reduced_slice = ()`).  Cell values are
integers; the boolean buffers of ANY/ALL are the 0/1 integers, and on
numpy booleans `out[...] += result` is logical or and `out[...] *= result`
logical and.  The dtype-dependent fills `np.iinfo(dtype).max/min` (`±inf`
for floats) enter as the parameters `imax`/`imin`.  `np.<op>.reduce` over
all axes is the fold of the operator over the chunk elements in C order;
`np.any`/`np.all` test for a nonzero element.  `ReduceOp.MEAN` reaches no
identity branch, so its output is never created. -/

/-- Row-major enumeration of all indices of a shape (`np.ndindex` order). -/
def allIdx : List Nat → List (List Nat)
  | [] => [[]]
  | d :: rest => (List.range d).bind (fun i => (allIdx rest).map (fun t => i :: t))

/-- numpy-bool `+=` / `*=` on 0-1 integers. -/
def or01 (a b : Int) : Int := if a = 0 ∧ b = 0 then 0 else 1

def and01 (a b : Int) : Int := if a ≠ 0 ∧ b ≠ 0 then 1 else 0

/-- The identity fill of the output created on the first chunk. -/
def identFor (op : ReduceOp) (imax imin : Int) : Option Int :=
  match op with
  | .SUM => some 0
  | .PROD => some 1
  | .MIN => some imax
  | .MAX => some imin
  | .ANY => some 0
  | .ALL => some 1
  | .MEAN => none

/-- The per-slot merge of a chunk's partial result into the output:
`+=` (or) for ANY, `*=` (and) for ALL, else `out[...] = op(out[...], r)`. -/
def mergeFor : ReduceOp → Int → Int → Int
  | .SUM => fun a b => a + b
  | .PROD => fun a b => a * b
  | .MIN => fun a b => min a b
  | .MAX => fun a b => max a b
  | .ANY => or01
  | .ALL => and01
  | .MEAN => fun a _ => a

/-- The per-chunk partial reduction of the kernel result over all axes. -/
def redChunk (op : ReduceOp) (vals : List Int) : Int :=
  match op with
  | .SUM => vals.foldl (fun a b => a + b) 0
  | .PROD => vals.foldl (fun a b => a * b) 1
  | .MIN =>
    match vals with
    | [] => 0
    | v :: rest => rest.foldl (fun a b => min a b) v
  | .MAX =>
    match vals with
    | [] => 0
    | v :: rest => rest.foldl (fun a b => max a b) v
  | .ANY => if vals.all (fun v => v = 0) then 0 else 1
  | .ALL => if vals.all (fun v => v ≠ 0) then 1 else 0
  | .MEAN => 0

/-- The elementwise kernel values of chunk `nchunk`, in C order. -/
def chunkVals (shape chunks : List Nat) (f : List Int → Int)
    (ops : List (Str × (List Nat → Int))) (nchunk : Nat) : List Int :=
  (allIdx ((chunkSlice (unravelIdx (chunksIdx shape chunks) nchunk) chunks
      shape).map (fun q => q.2 - q.1))).map
    (neEval f (ops.map (fun p =>
      (p.1, sliceView p.2
        (chunkSlice (unravelIdx (chunksIdx shape chunks) nchunk) chunks shape)))))

/-- The loop of `reduce_slices` over the first `n` chunks (string path,
all-axes reduction); `none` is the not-yet-created output. -/
def reduce_slices (op : ReduceOp) (imax imin : Int) (shape chunks : List Nat)
    (f : List Int → Int) (ops : List (Str × (List Nat → Int))) :
    Nat → Option Int
  | 0 => none
  | n+1 =>
    match reduce_slices op imax imin shape chunks f ops n with
    | none =>
      (identFor op imax imin).map
        (fun i0 => mergeFor op i0 (redChunk op (chunkVals shape chunks f ops n)))
    | some acc =>
      some (mergeFor op acc (redChunk op (chunkVals shape chunks f ops n)))

theorem reduce_slices_foldl (op : ReduceOp) (imax imin : Int)
    (shape chunks : List Nat) (f : List Int → Int)
    (ops : List (Str × (List Nat → Int))) :
    ∀ n, reduce_slices op imax imin shape chunks f ops (n+1)
      = (identFor op imax imin).map (fun i0 =>
          (List.range (n+1)).foldl
            (fun acc k => mergeFor op acc (redChunk op (chunkVals shape chunks f ops k)))
            i0) := by
  intro n
  induction n with
  | zero => rfl
  | succ n ih =>
    rw [show reduce_slices op imax imin shape chunks f ops (n+1+1)
        = match reduce_slices op imax imin shape chunks f ops (n+1) with
          | none => (identFor op imax imin).map (fun i0 => mergeFor op i0
              (redChunk op (chunkVals shape chunks f ops (n+1))))
          | some acc => some (mergeFor op acc
              (redChunk op (chunkVals shape chunks f ops (n+1))))
        from rfl]
    rw [ih]
    cases hid : identFor op imax imin with
    | none => simp only [Option.map_none']
    | some i0 =>
      simp only [Option.map_some']
      rw [show List.range (n+1+1) = List.range (n+1) ++ [n+1] from List.range_succ (n+1),
        List.foldl_append]
      simp only [List.foldl_cons, List.foldl_nil]

/-- **C4** (confirmed, all-axes instance).  The output created on the first
chunk is filled with the per-operator identity — SUM 0, PROD 1, MIN the
integer dtype maximum (`+∞` for floats), MAX the minimum (`−∞`), ANY
false, ALL true — and after any number of chunks the output slot equals
the operator-fold of the per-chunk partial reductions started from that
identity (or for ANY, and for ALL); in particular SUM over all axes is the
plain sum of the per-chunk sums. -/
theorem C4_reduce_slices_identity_merge (op : ReduceOp) (imax imin : Int)
    (shape chunks : List Nat) (f : List Int → Int)
    (ops : List (Str × (List Nat → Int))) :
    identFor .SUM imax imin = some 0
    ∧ identFor .PROD imax imin = some 1
    ∧ identFor .MIN imax imin = some imax
    ∧ identFor .MAX imax imin = some imin
    ∧ identFor .ANY imax imin = some 0
    ∧ identFor .ALL imax imin = some 1
    ∧ (∀ n, reduce_slices op imax imin shape chunks f ops (n+1)
        = (identFor op imax imin).map (fun i0 =>
            (List.range (n+1)).foldl
              (fun acc k =>
                mergeFor op acc (redChunk op (chunkVals shape chunks f ops k)))
              i0))
    ∧ (∀ n, reduce_slices .SUM imax imin shape chunks f ops (n+1)
        = some ((List.range (n+1)).foldl
            (fun acc k => acc + redChunk .SUM (chunkVals shape chunks f ops k))
            0)) := by
  refine ⟨rfl, rfl, rfl, rfl, rfl, rfl, ?_, ?_⟩
  · exact reduce_slices_foldl op imax imin shape chunks f ops
  · intro n
    rw [reduce_slices_foldl]
    rfl
